import Mathlib

/-! Verification model of the GPUJPEG segmented parallel entropy encoder core
(repository wangrui22/GPUJPEG).  The repository ships only the public header
`src/libgpujpeg/gpujpeg_encoder.h`; the implementation files it declares
(`gpujpeg_encoder.c`, the Huffman coder, `gpujpeg_common.h`, ...) are absent,
so every operational definition below is a shallow embedding modelled from the
specification `spec.md`, while the data structures mirror the header. -/

set_option maxHeartbeats 1000000

/-- Modelled from the spec: fuel-driven binary length of a natural number.
`bitLen n` is the number of bits of `n`, i.e. the JPEG magnitude category of a
coefficient of absolute value `n` (the categorize step of the absent Huffman
coder implementation, spec §4.2 step 2). -/
def bitLenAux : Nat → Nat → Nat
  | 0, _ => 0
  | fuel + 1, n => if n = 0 then 0 else bitLenAux fuel (n / 2) + 1

/-- Modelled from the spec: JPEG magnitude-category bit length. -/
def bitLen (n : Nat) : Nat := bitLenAux n n

lemma bitLenAux_zero : ∀ fuel, bitLenAux fuel 0 = 0 := by
  intro fuel; cases fuel <;> simp [bitLenAux]

lemma bitLenAux_bounds :
    ∀ fuel n, n ≤ fuel → n < 2 ^ bitLenAux fuel n ∧ (n ≠ 0 → 2 ^ (bitLenAux fuel n - 1) ≤ n) := by
  intro fuel
  induction fuel with
  | zero =>
    intro n hn
    have : n = 0 := by omega
    subst this
    simp [bitLenAux]
  | succ f ih =>
    intro n hn
    by_cases h0 : n = 0
    · subst h0; simp [bitLenAux]
    · have hdiv : n / 2 ≤ f := by omega
      obtain ⟨ih1, ih2⟩ := ih (n / 2) hdiv
      have hunfold : bitLenAux (f + 1) n = bitLenAux f (n / 2) + 1 := by
        simp [bitLenAux, h0]
      constructor
      · rw [hunfold]
        have hp : 2 ^ (bitLenAux f (n / 2) + 1) = 2 * 2 ^ bitLenAux f (n / 2) := by
          rw [pow_succ]; ring
        omega
      · intro _
        rw [hunfold]
        simp only [Nat.add_sub_cancel]
        by_cases h1 : n / 2 = 0
        · have hn1 : n = 1 := by omega
          subst hn1
          simp [h1, bitLenAux_zero]
        · have hlow := ih2 h1
          have hk : bitLenAux f (n / 2) ≠ 0 := by
            intro hc
            rw [hc] at ih1
            omega
          have hp : 2 ^ bitLenAux f (n / 2) = 2 * 2 ^ (bitLenAux f (n / 2) - 1) := by
            conv_lhs => rw [show bitLenAux f (n / 2) = (bitLenAux f (n / 2) - 1) + 1 by omega]
            rw [pow_succ]; ring
          omega

lemma bitLen_lt (n : Nat) : n < 2 ^ bitLen n := (bitLenAux_bounds n n le_rfl).1

lemma bitLen_le (n : Nat) (h : n ≠ 0) : 2 ^ (bitLen n - 1) ≤ n :=
  (bitLenAux_bounds n n le_rfl).2 h

lemma bitLen_zero : bitLen 0 = 0 := by simp [bitLen, bitLenAux]

lemma bitLen_pos (n : Nat) (h : n ≠ 0) : 0 < bitLen n := by
  by_contra hc
  have h0 : bitLen n = 0 := by omega
  have := bitLen_lt n
  rw [h0] at this
  simp at this
  omega

/-- Modelled from the spec: the `k` low-order bits of `n`, most significant bit
first — the layout in which the absent Huffman coder appends a value's bits to
the stream (spec §4.2 steps 2–3). -/
def natBits : Nat → Nat → List Bool
  | 0, _ => []
  | k + 1, n => natBits k (n / 2) ++ [n % 2 == 1]

/-- Modelled from the spec: numeric value of a most-significant-bit-first bit list. -/
def bitsToNat (l : List Bool) : Nat := l.foldl (fun a b => 2 * a + (if b then 1 else 0)) 0

lemma natBits_length : ∀ k n, (natBits k n).length = k := by
  intro k
  induction k with
  | zero => intro n; simp [natBits]
  | succ m ih => intro n; simp [natBits, ih]

lemma bitsToNat_append_bit (l : List Bool) (b : Bool) :
    bitsToNat (l ++ [b]) = 2 * bitsToNat l + (if b then 1 else 0) := by
  simp [bitsToNat, List.foldl_append]

lemma bitsToNat_natBits : ∀ k n, n < 2 ^ k → bitsToNat (natBits k n) = n := by
  intro k
  induction k with
  | zero =>
    intro n hn
    simp at hn
    simp [natBits, bitsToNat, hn]
  | succ m ih =>
    intro n hn
    have hp : 2 ^ (m + 1) = 2 * 2 ^ m := by rw [pow_succ]; ring
    have hdiv : n / 2 < 2 ^ m := by omega
    rw [natBits, bitsToNat_append_bit, ih (n / 2) hdiv]
    rcases Nat.mod_two_eq_zero_or_one n with h | h <;> simp [h] <;> omega

lemma natBits_bitsToNat (l : List Bool) : natBits l.length (bitsToNat l) = l := by
  induction l using List.reverseRecOn with
  | nil => simp [natBits, bitsToNat]
  | append_singleton l b ih =>
    rw [bitsToNat_append_bit]
    have hlen : (l ++ [b]).length = l.length + 1 := by simp
    rw [hlen, natBits]
    have hb : (if b then 1 else 0 : Nat) < 2 := by cases b <;> simp
    have hdiv : (2 * bitsToNat l + (if b then 1 else 0)) / 2 = bitsToNat l := by omega
    have hmod : (2 * bitsToNat l + (if b then 1 else 0)) % 2 = (if b then 1 else 0) := by omega
    rw [hdiv, hmod, ih]
    cases b <;> simp

lemma bitsToNat_lt (l : List Bool) : bitsToNat l < 2 ^ l.length := by
  induction l using List.reverseRecOn with
  | nil => simp [bitsToNat]
  | append_singleton l b ih =>
    rw [bitsToNat_append_bit]
    have hp : 2 ^ (l ++ [b]).length = 2 * 2 ^ l.length := by
      simp [pow_succ]; ring
    have hb : (if b then 1 else 0 : Nat) < 2 := by cases b <;> simp
    omega

/-- Modelled from the spec: JPEG magnitude category of a signed quantized
coefficient (spec §4.2 step 2: "categorize its magnitude"). -/
def category (v : Int) : Nat := bitLen v.natAbs

/-- Modelled from the spec: the value bits appended after a Huffman code: the
magnitude bits for a positive value, the one's-complement low bits for a
negative value, exactly `category v` bits (spec §4.2 steps 2–3). -/
def valueBits (v : Int) : List Bool :=
  if 0 ≤ v then natBits (category v) v.toNat
  else natBits (category v) (2 ^ category v - 1 - v.natAbs)

lemma valueBits_length (v : Int) : (valueBits v).length = category v := by
  unfold valueBits
  split <;> rw [natBits_length]

/-- Modelled from the spec: reference-decoder reading of `s` value bits back
into a signed value (the inverse of `valueBits`, spec §1 round-trip law). -/
def decodeValue (s : Nat) (bits : List Bool) : Option (Int × List Bool) :=
  if s = 0 then some (0, bits)
  else if bits.length < s then none
  else
    let n := bitsToNat (bits.take s)
    some (if n < 2 ^ (s - 1) then (n : Int) + 1 - 2 ^ s else (n : Int), bits.drop s)

lemma category_eq_zero_iff (v : Int) : category v = 0 ↔ v = 0 := by
  constructor
  · intro h
    have := bitLen_lt v.natAbs
    rw [category] at h
    rw [h] at this
    simp at this
    omega
  · intro h; subst h; simp [category, bitLen_zero]

lemma decodeValue_valueBits (v : Int) (extra : List Bool) :
    decodeValue (category v) (valueBits v ++ extra) = some (v, extra) := by
  by_cases h0 : v = 0
  · subst h0
    simp [decodeValue, category, bitLen_zero, valueBits, natBits]
  · have hs : category v ≠ 0 := fun hc => h0 ((category_eq_zero_iff v).1 hc)
    have hna : v.natAbs ≠ 0 := by
      intro hc
      exact h0 (Int.natAbs_eq_zero.1 hc)
    have hlow : 2 ^ (category v - 1) ≤ v.natAbs := bitLen_le v.natAbs hna
    have hhigh : v.natAbs < 2 ^ category v := bitLen_lt v.natAbs
    have hlen : (valueBits v).length = category v := valueBits_length v
    have htake : (valueBits v ++ extra).take (category v) = valueBits v := by
      rw [← hlen, List.take_left]
    have hdrop : (valueBits v ++ extra).drop (category v) = extra := by
      rw [← hlen, List.drop_left]
    have hlenge : ¬ ((valueBits v ++ extra).length < category v) := by
      simp [List.length_append, hlen]
    rw [decodeValue]
    simp only [hs, if_false, hlenge, if_false, htake, hdrop]
    by_cases hpos : 0 ≤ v
    · have hv : v.toNat = v.natAbs := by omega
      rw [valueBits, if_pos hpos, bitsToNat_natBits _ _ (by omega)]
      have hge : ¬ (v.toNat < 2 ^ (category v - 1)) := by omega
      simp only [hge, if_false]
      rw [Int.toNat_of_nonneg hpos]
    · have hneg : v < 0 := by omega
      rw [valueBits, if_neg hpos]
      have harg : 2 ^ category v - 1 - v.natAbs < 2 ^ category v := by omega
      rw [bitsToNat_natBits _ _ harg]
      have hps : 2 ^ category v = 2 * 2 ^ (category v - 1) := by
        conv_lhs => rw [show category v = (category v - 1) + 1 by omega]
        rw [pow_succ]; ring
      have hlt : 2 ^ category v - 1 - v.natAbs < 2 ^ (category v - 1) := by omega
      simp only [hlt, if_true]
      have hca : ((2 : Int) ^ category v) = ((2 ^ category v : Nat) : Int) := by
        push_cast; ring
      have heq : ((2 ^ category v - 1 - v.natAbs : Nat) : Int) + 1 - (2 : Int) ^ category v = v := by
        rw [hca]; omega
      rw [heq]

/-- Code Table of spec §3: a canonical Huffman code table mapping symbols
(DC magnitude categories, or AC run/size composites 0–255) to codewords,
mirroring `struct gpujpeg_table_huffman_encoder` of the absent
`gpujpeg_table.h`.  A codeword is a most-significant-bit-first bit list. -/
structure HuffTable where
  entries : List (Nat × List Bool)
deriving DecidableEq

/-- Modelled from the spec: code lookup for a symbol — "code lookup must match
the externally supplied Code Table exactly" (spec §4.2); absent a matching
entry the lookup fails, which is the encoding-data error of spec §7. -/
def HuffTable.code (t : HuffTable) (s : Nat) : Option (List Bool) :=
  match t.entries.find? (fun e => e.1 == s) with
  | some e => some e.2
  | none => none

/-- Modelled from the spec: a canonical (decodable) table — no codeword is a
prefix of a distinct entry's codeword.  This is what "canonical Huffman code
table" (spec §3) guarantees for the reference decoder of spec §8. -/
def HuffTable.validB (t : HuffTable) : Bool :=
  t.entries.all (fun e1 => t.entries.all (fun e2 => !(e1.2.isPrefixOf e2.2) || (e1 == e2)))

/-- Modelled from the spec: reference-decoder symbol reading — scan the table
for the entry whose codeword is a prefix of the remaining bits and consume it. -/
def decodeSym : List (Nat × List Bool) → List Bool → Option (Nat × List Bool)
  | [], _ => none
  | e :: es, bits => if e.2.isPrefixOf bits then some (e.1, bits.drop e.2.length) else decodeSym es bits

lemma HuffTable.code_mem {t : HuffTable} {s : Nat} {c : List Bool} (h : t.code s = some c) :
    (s, c) ∈ t.entries := by
  unfold HuffTable.code at h
  cases hf : t.entries.find? (fun e => e.1 == s) with
  | none => rw [hf] at h; exact absurd h (by simp)
  | some e =>
    rw [hf] at h
    have hmem := List.mem_of_find?_eq_some hf
    have hs := List.find?_some hf
    simp at hs h
    have : e = (s, c) := by
      cases e
      simp at hs h ⊢
      exact ⟨hs, h⟩
    rw [← this]
    exact hmem

lemma HuffTable.valid_pf {t : HuffTable} (hv : t.validB = true)
    {e1 e2 : Nat × List Bool} (h1 : e1 ∈ t.entries) (h2 : e2 ∈ t.entries)
    (hp : e1.2.isPrefixOf e2.2 = true) : e1 = e2 := by
  unfold HuffTable.validB at hv
  rw [List.all_eq_true] at hv
  have := hv e1 h1
  rw [List.all_eq_true] at this
  have := this e2 h2
  rw [hp] at this
  simpa using this

lemma decodeSym_of_unique {es : List (Nat × List Bool)} {s : Nat} {c : List Bool}
    (hmem : (s, c) ∈ es) (rest : List Bool)
    (huniq : ∀ e ∈ es, e.2.isPrefixOf (c ++ rest) = true → e = (s, c)) :
    decodeSym es (c ++ rest) = some (s, rest) := by
  induction es with
  | nil => simp at hmem
  | cons e es ih =>
    rw [decodeSym]
    by_cases hp : e.2.isPrefixOf (c ++ rest) = true
    · have he : e = (s, c) := huniq e (by simp) hp
      subst he
      simp [hp, List.drop_left]
    · have hne : e ≠ (s, c) := by
        intro hc
        subst hc
        simp [List.isPrefixOf_iff_prefix] at hp
      have hmem2 : (s, c) ∈ es := by
        rcases List.mem_cons.mp hmem with h | h
        · exact absurd h.symm hne
        · exact h
      rw [if_neg (by simpa using hp)]
      exact ih hmem2 (fun e2 h2 hp2 => huniq e2 (by simp [h2]) hp2)

lemma decodeSym_code {t : HuffTable} (hv : t.validB = true) {s : Nat} {c : List Bool}
    (hc : t.code s = some c) (rest : List Bool) :
    decodeSym t.entries (c ++ rest) = some (s, rest) := by
  have hmem := HuffTable.code_mem hc
  apply decodeSym_of_unique hmem rest
  intro e he hp
  rw [List.isPrefixOf_iff_prefix] at hp
  have hcp : c <+: c ++ rest := List.prefix_append c rest
  rcases le_or_lt e.2.length c.length with hle | hlt
  · have : e.2 <+: c := List.prefix_of_prefix_length_le hp hcp hle
    exact HuffTable.valid_pf hv he hmem (by rwa [List.isPrefixOf_iff_prefix])
  · have : c <+: e.2 := List.prefix_of_prefix_length_le hcp hp (by omega)
    have := HuffTable.valid_pf hv hmem he (by rwa [List.isPrefixOf_iff_prefix])
    exact this.symm

/-- Modelled from the spec: one 8×8 block of already-quantized coefficients as
the Parallel Entropy Encoder reads it from the Coefficient Buffer (spec §3):
the owning component's index, the DC coefficient, and the AC coefficients in
zig-zag order. -/
structure Block where
  comp : Nat
  dc : Int
  acs : List Int
deriving DecidableEq

/-- Modelled from the spec: DC coding step of the absent Huffman coder (spec
§4.2 step 2): code the difference from the running predictor, then append the
difference's value bits. -/
def encodeDC (t : HuffTable) (pred dc : Int) : Option (List Bool) :=
  match t.code (category (dc - pred)) with
  | some c => some (c ++ valueBits (dc - pred))
  | none => none

/-- Modelled from the spec: AC coding of the absent Huffman coder (spec §4.2
step 3): accumulate zero runs, emit ZRL (symbol 240) per 16 accumulated zeros
before a nonzero value, code the run/size composite `16*run + size` followed by
the value bits, and close trailing zeros with EOB (symbol 0).  A magnitude
category outside the 0–15 composite range of the Code Table is the
encoding-data error of spec §7 and fails the call. -/
def encodeAC (t : HuffTable) : Nat → List Int → Option (List Bool)
  | run, [] => if run = 0 then some [] else t.code 0
  | run, v :: rest =>
    if v = 0 then encodeAC t (run + 1) rest
    else if category v ≤ 15 then
      match (if run < 16 then some [] else
              (t.code 240).map (fun zc => (List.replicate (run / 16) zc).flatten)),
            t.code (16 * (run % 16) + category v), encodeAC t 0 rest with
      | some z, some c, some r => some (z ++ c ++ valueBits v ++ r)
      | _, _, _ => none
    else none

/-- Modelled from the spec: encoding of one block — DC then AC (spec §4.2). -/
def encodeBlock (tDC tAC : HuffTable) (pred : Int) (b : Block) : Option (List Bool) :=
  match encodeDC tDC pred b.dc, encodeAC tAC 0 b.acs with
  | some d, some a => some (d ++ a)
  | _, _ => none

/-- Modelled from the spec: encoding of a run of blocks threading the
per-component DC predictors (spec §4.2 step 2), with the component's table
pair selected from the Code Table map. -/
def encodeBlocksFrom (T : Nat → HuffTable × HuffTable) : (Nat → Int) → List Block → Option (List Bool)
  | _, [] => some []
  | preds, b :: rest =>
    match encodeBlock (T b.comp).1 (T b.comp).2 (preds b.comp) b,
          encodeBlocksFrom T (Function.update preds b.comp b.dc) rest with
    | some e, some r => some (e ++ r)
    | _, _ => none

/-- Modelled from the spec: a segment's independent Huffman pass — every
per-component DC prediction value starts at 0 (spec §4.2 step 1). -/
def encodeSegment (T : Nat → HuffTable × HuffTable) (blocks : List Block) : Option (List Bool) :=
  encodeBlocksFrom T (fun _ => 0) blocks

/-- Modelled from the spec: reference-decoder DC step — read a category symbol,
read that many value bits, add the running predictor (spec §8 round-trip). -/
def decodeDC (t : HuffTable) (pred : Int) (bits : List Bool) : Option (Int × List Bool) :=
  match decodeSym t.entries bits with
  | none => none
  | some (s, r) =>
    match decodeValue s r with
    | none => none
    | some (d, r2) => some (pred + d, r2)

/-- Modelled from the spec: reference-decoder AC loop, reading run/size symbols
until the block's remaining coefficient count is exhausted; EOB fills the rest
with zeros, ZRL inserts 16 zeros.  Fuel-driven (fuel ≥ remaining suffices). -/
def decodeACsAux (t : HuffTable) : Nat → Nat → List Bool → Option (List Int × List Bool)
  | _, 0, bits => some ([], bits)
  | 0, _ + 1, _ => none
  | fuel + 1, n + 1, bits =>
    match decodeSym t.entries bits with
    | none => none
    | some (rs, r) =>
      if rs = 0 then some (List.replicate (n + 1) 0, r)
      else if rs = 240 then
        if 16 ≤ n + 1 then
          match decodeACsAux t fuel (n + 1 - 16) r with
          | none => none
          | some (l, r2) => some (List.replicate 16 0 ++ l, r2)
        else none
      else if rs % 16 = 0 then none
      else if rs / 16 + 1 ≤ n + 1 then
        match decodeValue (rs % 16) r with
        | none => none
        | some (v, r2) =>
          match decodeACsAux t fuel (n - rs / 16) r2 with
          | none => none
          | some (l, r3) => some (List.replicate (rs / 16) 0 ++ v :: l, r3)
      else none

/-- Modelled from the spec: reference-decoder AC loop for `n` coefficients. -/
def decodeACs (t : HuffTable) (n : Nat) (bits : List Bool) : Option (List Int × List Bool) :=
  decodeACsAux t n n bits

/-- Modelled from the spec: reference decoding of a scan's blocks given the
component sequence (the scan structure from the Segmentation Plan), threading
per-component DC predictors exactly as the encoder does. -/
def decodeBlocks (T : Nat → HuffTable × HuffTable) : (Nat → Int) → List Nat → List Bool → Option (List Block × List Bool)
  | _, [], bits => some ([], bits)
  | preds, c :: cs, bits =>
    match decodeDC (T c).1 (preds c) bits with
    | none => none
    | some (dc, r1) =>
      match decodeACs (T c).2 63 r1 with
      | none => none
      | some (acs, r2) =>
        match decodeBlocks T (Function.update preds c dc) cs r2 with
        | none => none
        | some (bs, r3) => some (⟨c, dc, acs⟩ :: bs, r3)

lemma decodeACsAux_fuel (t : HuffTable) :
    ∀ n fuel1 fuel2 bits, n ≤ fuel1 → n ≤ fuel2 →
      decodeACsAux t fuel1 n bits = decodeACsAux t fuel2 n bits := by
  intro n
  induction n using Nat.strong_induction_on with
  | _ n ih =>
    cases n with
    | zero => intro fuel1 fuel2 bits h1 h2; simp [decodeACsAux]
    | succ k =>
      intro fuel1 fuel2 bits h1 h2
      cases fuel1 with
      | zero => omega
      | succ f1 =>
        cases fuel2 with
        | zero => omega
        | succ f2 =>
          simp only [decodeACsAux]
          cases hds : decodeSym t.entries bits with
          | none => rfl
          | some p =>
            obtain ⟨rs, r⟩ := p
            by_cases hrs0 : rs = 0
            · simp [hrs0]
            · by_cases hrs240 : rs = 240
              · by_cases h16 : 16 ≤ k + 1
                · have hEq := ih (k - 15) (by omega) f1 f2 r (by omega) (by omega)
                  simp [hrs0, hrs240, h16, hEq]
                · simp [hrs0, hrs240, h16]
              · by_cases hmod : rs % 16 = 0
                · simp [hrs0, hrs240, hmod]
                · by_cases hdiv : rs / 16 + 1 ≤ k + 1
                  · simp only [if_neg hrs0, if_neg hrs240, if_neg hmod, if_pos hdiv]
                    cases hdv : decodeValue (rs % 16) r with
                    | none => rfl
                    | some q =>
                      obtain ⟨v, r2⟩ := q
                      have hEq := ih (k - rs / 16) (by omega) f1 f2 r2 (by omega) (by omega)
                      simp [hEq]
                  · simp [hrs0, hrs240, hmod, hdiv]

lemma decodeACsAux_zrl (t : HuffTable) (hv : t.validB = true) {zc : List Bool}
    (hzc : t.code 240 = some zc) :
    ∀ (q fuel n : Nat) (bits : List Bool), 1 ≤ n → 16 * q + n ≤ fuel →
      decodeACsAux t fuel (16 * q + n) ((List.replicate q zc).flatten ++ bits)
        = (decodeACsAux t n n bits).map (fun p => (List.replicate (16 * q) 0 ++ p.1, p.2)) := by
  intro q
  induction q with
  | zero =>
    intro fuel n bits hn hf
    simp only [Nat.mul_zero, Nat.zero_add, List.replicate_zero, List.flatten_nil,
      List.nil_append, List.replicate, List.nil_append]
    rw [decodeACsAux_fuel t n fuel n bits (by omega) le_rfl]
    cases decodeACsAux t n n bits with
    | none => rfl
    | some p => cases p; simp
  | succ q ih =>
    intro fuel n bits hn hf
    have hrem : 16 * (q + 1) + n = (16 * q + n + 15) + 1 := by omega
    cases fuel with
    | zero => omega
    | succ f =>
      have hlist : (List.replicate (q + 1) zc).flatten ++ bits
          = zc ++ ((List.replicate q zc).flatten ++ bits) := by
        simp [List.replicate_succ, List.append_assoc]
      rw [hrem, hlist]
      simp only [decodeACsAux]
      rw [decodeSym_code hv hzc]
      have hidx : 16 * q + n + 15 + 1 - 16 = 16 * q + n := by omega
      have h16 : 16 ≤ 16 * q + n + 15 + 1 := by omega
      have hih := ih f n bits hn (by omega)
      simp only [if_neg (by omega : ¬ (240 = 0)), if_pos rfl, if_pos h16, hidx, hih]
      cases hinner : decodeACsAux t n n bits with
      | none => rfl
      | some p =>
        obtain ⟨l, r⟩ := p
        have hrep : List.replicate 16 (0 : Int) ++ List.replicate (16 * q) 0
            = List.replicate (16 * (q + 1)) 0 := by
          rw [← List.replicate_add]
          congr 1
          ring
        simp [← hrep, List.append_assoc]

lemma decodeACsAux_core_step (t : HuffTable) (hv : t.validB = true)
    {v : Int} (hv0 : v ≠ 0) (hcat : category v ≤ 15)
    {run2 : Nat} (hrun : run2 ≤ 15) {c : List Bool}
    (hc : t.code (16 * run2 + category v) = some c)
    {rest : List Int} {r : List Bool}
    (hrec : ∀ extra2, decodeACs t rest.length (r ++ extra2) = some (rest, extra2))
    (extra : List Bool) (fuel : Nat) (hf : run2 + rest.length + 1 ≤ fuel) :
    decodeACsAux t fuel (run2 + rest.length + 1) (c ++ (valueBits v ++ (r ++ extra)))
      = some (List.replicate run2 0 ++ v :: rest, extra) := by
  cases fuel with
  | zero => omega
  | succ f =>
    have hcat0 : category v ≠ 0 := fun hez => hv0 ((category_eq_zero_iff v).1 hez)
    have hmod : (16 * run2 + category v) % 16 = category v := by
      rw [Nat.mul_add_mod]
      exact Nat.mod_eq_of_lt (by omega)
    have hdiv : (16 * run2 + category v) / 16 = run2 := by
      rw [Nat.mul_add_div (by norm_num), Nat.div_eq_of_lt (by omega)]
      omega
    simp only [decodeACsAux]
    rw [decodeSym_code hv hc]
    have hne0 : ¬ (16 * run2 + category v = 0) := by omega
    have hne240 : ¬ (16 * run2 + category v = 240) := by
      intro hx
      have : (16 * run2 + category v) % 16 = 0 := by rw [hx]
      omega
    have hnemod : ¬ ((16 * run2 + category v) % 16 = 0) := by omega
    have hguard : (16 * run2 + category v) / 16 + 1 ≤ run2 + rest.length + 1 := by
      rw [hdiv]; omega
    simp only [if_neg hne0, if_neg hne240, if_neg hnemod, if_pos hguard, hmod, hdiv]
    rw [decodeValue_valueBits]
    have hidx : run2 + rest.length + 1 - 1 - run2 = rest.length := by omega
    have hfa : decodeACsAux t f (run2 + rest.length - run2) (r ++ extra)
        = some (rest, extra) := by
      have : run2 + rest.length - run2 = rest.length := by omega
      rw [this, decodeACsAux_fuel t rest.length f rest.length (r ++ extra) (by omega) le_rfl]
      exact hrec extra
    simp only [Nat.add_sub_cancel, hfa]
    rw [if_neg hcat0, if_pos (by omega : run2 + 1 ≤ run2 + rest.length + 1)]

lemma decodeACs_encodeAC (t : HuffTable) (hv : t.validB = true) :
    ∀ (l : List Int) (run : Nat) (bits : List Bool), encodeAC t run l = some bits →
      ∀ extra, decodeACs t (run + l.length) (bits ++ extra)
        = some (List.replicate run 0 ++ l, extra) := by
  intro l
  induction l with
  | nil =>
    intro run bits henc extra
    rw [encodeAC] at henc
    by_cases hr : run = 0
    · subst hr
      rw [if_pos rfl] at henc
      have hb : bits = [] := by simpa using henc.symm
      subst hb
      simp [decodeACs, decodeACsAux]
    · rw [if_neg hr] at henc
      cases run with
      | zero => exact absurd rfl hr
      | succ m =>
        have hsym := decodeSym_code hv henc extra
        simp only [List.length_nil, Nat.add_zero, decodeACs]
        simp only [decodeACsAux]
        rw [hsym]
        simp
  | cons v rest ih =>
    intro run bits henc extra
    rw [encodeAC] at henc
    by_cases hv0 : v = 0
    · rw [if_pos hv0] at henc
      have hrt := ih (run + 1) bits henc extra
      have hlen : run + (v :: rest).length = run + 1 + rest.length := by
        simp [List.length_cons]
        omega
      rw [hlen, hrt]
      subst hv0
      simp [List.replicate_succ', List.append_assoc]
    · rw [if_neg hv0] at henc
      by_cases hcat : category v ≤ 15
      · rw [if_pos hcat] at henc
        cases hz : (if run < 16 then some ([] : List Bool) else
            (t.code 240).map (fun zc => (List.replicate (run / 16) zc).flatten)) with
        | none => rw [hz] at henc; simp at henc
        | some z =>
          cases hcopt : t.code (16 * (run % 16) + category v) with
          | none => rw [hz, hcopt] at henc; simp at henc
          | some c =>
            cases hropt : encodeAC t 0 rest with
            | none => rw [hz, hcopt, hropt] at henc; simp at henc
            | some r =>
              rw [hz, hcopt, hropt] at henc
              simp only [Option.some.injEq] at henc
              subst henc
              have hrec : ∀ extra2, decodeACs t rest.length (r ++ extra2) = some (rest, extra2) := by
                intro extra2
                have := ih 0 r hropt extra2
                simpa using this
              have hidx : run + (v :: rest).length = run + rest.length + 1 := by
                simp [List.length_cons]
                omega
              rw [hidx]
              by_cases h16 : run < 16
              · rw [if_pos h16] at hz
                have hz0 : z = [] := by simpa using hz.symm
                subst hz0
                have hrm : run % 16 = run := Nat.mod_eq_of_lt h16
                rw [hrm] at hcopt
                have hstep := decodeACsAux_core_step t hv hv0 hcat
                  (by omega : run ≤ 15) hcopt hrec extra (run + rest.length + 1) le_rfl
                rw [decodeACs]
                rw [show ([] ++ c ++ valueBits v ++ r) ++ extra
                    = c ++ (valueBits v ++ (r ++ extra)) by simp [List.append_assoc]]
                exact hstep
              · rw [if_neg h16] at hz
                cases hzc : t.code 240 with
                | none => rw [hzc] at hz; simp at hz
                | some zc =>
                  rw [hzc] at hz
                  have hzf : z = (List.replicate (run / 16) zc).flatten := by
                    simpa using hz.symm
                  subst hzf
                  have hstep := decodeACsAux_core_step t hv hv0 hcat
                    (by omega : run % 16 ≤ 15) hcopt hrec extra
                    (run % 16 + rest.length + 1) le_rfl
                  have hchain := decodeACsAux_zrl t hv hzc (run / 16)
                    (run + rest.length + 1) (run % 16 + rest.length + 1)
                    (c ++ (valueBits v ++ (r ++ extra))) (by omega) (by omega)
                  rw [decodeACs]
                  rw [show ((List.replicate (run / 16) zc).flatten ++ c ++ valueBits v ++ r) ++ extra
                      = (List.replicate (run / 16) zc).flatten ++ (c ++ (valueBits v ++ (r ++ extra)))
                      by simp [List.append_assoc]]
                  rw [show run + rest.length + 1
                      = 16 * (run / 16) + (run % 16 + rest.length + 1) by omega] at hchain ⊢
                  rw [hchain, hstep]
                  have hcombn : 16 * (run / 16) + run % 16 = run := by omega
                  have hcomb : List.replicate (16 * (run / 16)) (0 : Int)
                      ++ (List.replicate (run % 16) 0 ++ v :: rest)
                      = List.replicate run 0 ++ v :: rest := by
                    rw [← List.append_assoc, ← List.replicate_add, hcombn]
                  simp [hcomb]
      · rw [if_neg hcat] at henc
        exact absurd henc (by simp)

lemma decodeDC_encodeDC (t : HuffTable) (hv : t.validB = true) {pred dc : Int} {bits : List Bool}
    (henc : encodeDC t pred dc = some bits) (extra : List Bool) :
    decodeDC t pred (bits ++ extra) = some (dc, extra) := by
  rw [encodeDC] at henc
  cases hc : t.code (category (dc - pred)) with
  | none => rw [hc] at henc; simp at henc
  | some c =>
    rw [hc] at henc
    simp only [Option.some.injEq] at henc
    subst henc
    rw [decodeDC]
    rw [show (c ++ valueBits (dc - pred)) ++ extra = c ++ (valueBits (dc - pred) ++ extra) by
      simp [List.append_assoc]]
    simp only [decodeSym_code hv hc, decodeValue_valueBits]
    have : pred + (dc - pred) = dc := by ring
    rw [this]

lemma decodeBlocks_encodeBlocks (T : Nat → HuffTable × HuffTable)
    (hT : ∀ cc, (T cc).1.validB = true ∧ (T cc).2.validB = true) :
    ∀ (blocks : List Block) (preds : Nat → Int) (bits : List Bool),
      (∀ b ∈ blocks, b.acs.length = 63) →
      encodeBlocksFrom T preds blocks = some bits →
      ∀ extra, decodeBlocks T preds (blocks.map Block.comp) (bits ++ extra) = some (blocks, extra) := by
  intro blocks
  induction blocks with
  | nil =>
    intro preds bits hacs henc extra
    rw [encodeBlocksFrom] at henc
    have hb : bits = [] := by simpa using henc.symm
    subst hb
    simp [decodeBlocks]
  | cons b rest ih =>
    intro preds bits hacs henc extra
    rw [encodeBlocksFrom] at henc
    cases he : encodeBlock (T b.comp).1 (T b.comp).2 (preds b.comp) b with
    | none => rw [he] at henc; simp at henc
    | some e =>
      cases hr : encodeBlocksFrom T (Function.update preds b.comp b.dc) rest with
      | none => rw [he, hr] at henc; simp at henc
      | some r =>
        rw [he, hr] at henc
        simp only [Option.some.injEq] at henc
        subst henc
        rw [encodeBlock] at he
        cases hd : encodeDC (T b.comp).1 (preds b.comp) b.dc with
        | none => rw [hd] at he; simp at he
        | some d =>
          cases ha : encodeAC (T b.comp).2 0 b.acs with
          | none => rw [hd, ha] at he; simp at he
          | some a =>
            rw [hd, ha] at he
            simp only [Option.some.injEq] at he
            subst he
            have hassoc : ((d ++ a) ++ r) ++ extra = d ++ (a ++ (r ++ extra)) := by
              simp [List.append_assoc]
            have hac := decodeACs_encodeAC (T b.comp).2 (hT b.comp).2 b.acs 0 a ha (r ++ extra)
            rw [hacs b (by simp)] at hac
            simp only [Nat.zero_add, List.replicate_zero, List.nil_append] at hac
            have hrest := ih (Function.update preds b.comp b.dc) r
              (fun bb hb => hacs bb (by simp [hb])) hr extra
            simp only [List.map_cons, decodeBlocks, hassoc,
              decodeDC_encodeDC (T b.comp).1 (hT b.comp).1 hd (a ++ (r ++ extra)), hac, hrest]

/-- Modelled from the spec: pad the final partial byte of a segment's bit
stream with 1-bits so the packed stream is whole bytes (spec §4.2 step 4). -/
def padBits (l : List Bool) : List Bool := l ++ List.replicate ((8 - l.length % 8) % 8) true

/-- Modelled from the spec: pack a byte-aligned bit stream into bytes, most
significant bit first (spec §4.2 step 4). -/
def chunkBytes : List Bool → List Nat
  | b0 :: b1 :: b2 :: b3 :: b4 :: b5 :: b6 :: b7 :: rest =>
    bitsToNat [b0, b1, b2, b3, b4, b5, b6, b7] :: chunkBytes rest
  | _ => []

/-- Modelled from the spec: pack a segment's emitted bits into bytes (spec
§4.2 step 4, before byte-stuffing). -/
def bitsToBytes (l : List Bool) : List Nat := chunkBytes (padBits l)

/-- Modelled from the spec: reference-decoder unpacking of bytes into bits. -/
def bytesToBits : List Nat → List Bool
  | [] => []
  | b :: rest => natBits 8 b ++ bytesToBits rest

/-- Modelled from the spec: byte-stuffing — insert a zero byte after any 0xFF
byte that appears in the payload (spec §4.2 step 4). -/
def stuff : List Nat → List Nat
  | [] => []
  | b :: rest => if b = 255 then 255 :: 0 :: stuff rest else b :: stuff rest

/-- Modelled from the spec: reference-decoder removal of stuffed zero bytes. -/
def unstuff : List Nat → List Nat
  | [] => []
  | [b] => [b]
  | b :: c :: rest => if b = 255 ∧ c = 0 then 255 :: unstuff rest else b :: unstuff (c :: rest)

/-- Modelled from the spec: every 0xFF in the byte list is immediately
followed by a stuffed 0x00 (and the list does not end in a bare 0xFF) — the
byte-exact escaping invariant of spec §4.2 step 4 and §6. -/
def wellStuffed : List Nat → Bool
  | [] => true
  | [b] => decide (b ≠ 255)
  | b :: c :: rest => if b = 255 then decide (c = 0) && wellStuffed rest else wellStuffed (c :: rest)

lemma bytesToBits_chunkBytes :
    ∀ (n : Nat) (l : List Bool), l.length = 8 * n → bytesToBits (chunkBytes l) = l := by
  intro n
  induction n with
  | zero =>
    intro l hl
    have h0 : l = [] := List.eq_nil_of_length_eq_zero (by omega)
    subst h0
    rfl
  | succ m ih =>
    intro l hl
    obtain ⟨b0, l0, rfl⟩ := List.exists_cons_of_ne_nil
      (fun h : l = [] => by subst h; simp at hl <;> omega)
    obtain ⟨b1, l1, rfl⟩ := List.exists_cons_of_ne_nil
      (fun h : l0 = [] => by subst h; simp at hl <;> omega)
    obtain ⟨b2, l2, rfl⟩ := List.exists_cons_of_ne_nil
      (fun h : l1 = [] => by subst h; simp at hl <;> omega)
    obtain ⟨b3, l3, rfl⟩ := List.exists_cons_of_ne_nil
      (fun h : l2 = [] => by subst h; simp at hl <;> omega)
    obtain ⟨b4, l4, rfl⟩ := List.exists_cons_of_ne_nil
      (fun h : l3 = [] => by subst h; simp at hl <;> omega)
    obtain ⟨b5, l5, rfl⟩ := List.exists_cons_of_ne_nil
      (fun h : l4 = [] => by subst h; simp at hl <;> omega)
    obtain ⟨b6, l6, rfl⟩ := List.exists_cons_of_ne_nil
      (fun h : l5 = [] => by subst h; simp at hl <;> omega)
    obtain ⟨b7, l7, rfl⟩ := List.exists_cons_of_ne_nil
      (fun h : l6 = [] => by subst h; simp at hl <;> omega)
    have hrest : l7.length = 8 * m := by
      simp [List.length_cons] at hl
      omega
    have hnb : natBits 8 (bitsToNat [b0, b1, b2, b3, b4, b5, b6, b7])
        = [b0, b1, b2, b3, b4, b5, b6, b7] := by
      have := natBits_bitsToNat [b0, b1, b2, b3, b4, b5, b6, b7]
      simpa using this
    calc bytesToBits (chunkBytes (b0 :: b1 :: b2 :: b3 :: b4 :: b5 :: b6 :: b7 :: l7))
        = natBits 8 (bitsToNat [b0, b1, b2, b3, b4, b5, b6, b7]) ++ bytesToBits (chunkBytes l7) := rfl
      _ = [b0, b1, b2, b3, b4, b5, b6, b7] ++ l7 := by rw [hnb, ih l7 hrest]
      _ = b0 :: b1 :: b2 :: b3 :: b4 :: b5 :: b6 :: b7 :: l7 := by simp

lemma padBits_length (l : List Bool) : (padBits l).length = 8 * ((l.length + 7) / 8) := by
  simp [padBits, List.length_append, List.length_replicate]
  omega

lemma bytesToBits_bitsToBytes (l : List Bool) : bytesToBits (bitsToBytes l) = padBits l :=
  bytesToBits_chunkBytes ((l.length + 7) / 8) (padBits l) (padBits_length l)

lemma unstuff_stuff : ∀ l : List Nat, unstuff (stuff l) = l := by
  intro l
  induction l with
  | nil => rfl
  | cons b rest ih =>
    rw [stuff]
    by_cases hb : b = 255
    · subst hb
      rw [if_pos rfl]
      rw [show unstuff (255 :: 0 :: stuff rest) = 255 :: unstuff (stuff rest) by
        rw [unstuff]; simp]
      rw [ih]
    · rw [if_neg hb]
      cases hs : stuff rest with
      | nil =>
        have : rest = [] := by
          cases rest with
          | nil => rfl
          | cons x xs =>
            rw [stuff] at hs
            by_cases hx : x = 255 <;> simp [hx] at hs
        subst this
        rfl
      | cons c cs =>
        rw [show unstuff (b :: c :: cs) = if b = 255 ∧ c = 0 then 255 :: unstuff cs
            else b :: unstuff (c :: cs) from by rw [unstuff]]
        rw [if_neg (by tauto)]
        rw [← hs, ih]

lemma wellStuffed_stuff : ∀ l : List Nat, wellStuffed (stuff l) = true := by
  intro l
  induction l with
  | nil => rfl
  | cons b rest ih =>
    rw [stuff]
    by_cases hb : b = 255
    · subst hb
      rw [if_pos rfl]
      rw [show wellStuffed (255 :: 0 :: stuff rest) = (decide ((0 : Nat) = 0) && wellStuffed (stuff rest)) from by
        rw [wellStuffed]; simp]
      simp [ih]
    · rw [if_neg hb]
      cases hs : stuff rest with
      | nil => simp [wellStuffed, hb]
      | cons c cs =>
        rw [show wellStuffed (b :: c :: cs) = wellStuffed (c :: cs) from by
          rw [wellStuffed, if_neg hb]]
        rw [← hs, ih]

/-- Modelled from the spec: is the byte one of the eight restart-marker second
bytes 0xD0–0xD7 (marker prefix byte plus cyclically incrementing low nibble,
spec §6)? -/
def isRST (m : Nat) : Bool := decide (208 ≤ m) && decide (m ≤ 215)

/-- Modelled from the spec: the two-byte restart marker written between
consecutive segments, cycling the sequence number 0–7 (spec §4.3 step 3). -/
def markerRST (i : Nat) : List Nat := [255, 208 + i % 8]

/-- Modelled from the spec: the Stream Compactor's copy phase — concatenate
all segments' bytes in segment order, inserting a restart marker between
consecutive segments (not before the first, not after the last), cycling the
marker index (spec §4.3). -/
def compactFrom : Nat → List (List Nat) → List Nat
  | _, [] => []
  | _, [s] => s
  | i, s :: s2 :: ss => s ++ (markerRST i ++ compactFrom (i + 1) (s2 :: ss))

/-- Modelled from the spec: a byte list free of restart-marker byte pairs —
no 0xFF immediately followed by a 0xD0–0xD7 byte, and not ending in 0xFF.
Byte-stuffed segment payloads satisfy this, which is what makes the marker
scan of the reference decoder unambiguous (spec §4.2 step 4, §6). -/
def noMarker : List Nat → Bool
  | [] => true
  | [b] => decide (b ≠ 255)
  | b :: c :: rest => (if b = 255 then !(isRST c) else true) && noMarker (c :: rest)

/-- Modelled from the spec: the reference decoder's marker scan — split the
Compacted Output Buffer at each restart-marker byte pair, dropping the marker
bytes (spec §1, §8: decoding the buffer segment-by-segment). -/
def splitAtMarkers : List Nat → List (List Nat)
  | [] => [[]]
  | [b] => [[b]]
  | b :: c :: rest =>
    if b = 255 ∧ isRST c then [] :: splitAtMarkers rest
    else
      match splitAtMarkers (c :: rest) with
      | [] => [[b]]
      | s :: ss => (b :: s) :: ss

lemma noMarker_cons_ne {b : Nat} (hb : ¬ b = 255) :
    ∀ rest, noMarker (b :: rest) = noMarker rest := by
  intro rest
  cases rest with
  | nil => simp [noMarker, hb]
  | cons c r => simp [noMarker, hb]

lemma noMarker_of_wellStuffed_aux :
    ∀ (n : Nat) (l : List Nat), l.length ≤ n → wellStuffed l = true → noMarker l = true := by
  intro n
  induction n with
  | zero =>
    intro l hl hw
    have h0 : l = [] := List.eq_nil_of_length_eq_zero (by omega)
    subst h0
    rfl
  | succ m ih =>
    intro l hl hw
    cases l with
    | nil => rfl
    | cons b rest =>
      cases rest with
      | nil =>
        rw [wellStuffed] at hw
        rw [noMarker]
        exact hw
      | cons c r =>
        by_cases hb : b = 255
        · subst hb
          rw [wellStuffed, if_pos rfl] at hw
          simp only [Bool.and_eq_true, decide_eq_true_eq] at hw
          obtain ⟨hc0, hwr⟩ := hw
          subst hc0
          rw [noMarker, if_pos rfl]
          have h0r : noMarker (0 :: r) = true := by
            rw [noMarker_cons_ne (by norm_num)]
            refine ih r (by simp at hl; omega) hwr
          simp [isRST, h0r]
        · rw [wellStuffed, if_neg hb] at hw
          rw [noMarker_cons_ne hb]
          refine ih (c :: r) (by simp at hl ⊢; omega) hw

lemma noMarker_of_wellStuffed (l : List Nat) (hw : wellStuffed l = true) : noMarker l = true :=
  noMarker_of_wellStuffed_aux l.length l le_rfl hw

lemma splitAtMarkers_noMarker_aux :
    ∀ (n : Nat) (s : List Nat), s.length ≤ n → noMarker s = true → splitAtMarkers s = [s] := by
  intro n
  induction n with
  | zero =>
    intro s hl hm
    have h0 : s = [] := List.eq_nil_of_length_eq_zero (by omega)
    subst h0
    rfl
  | succ m ih =>
    intro s hl hm
    cases s with
    | nil => rfl
    | cons b rest =>
      cases rest with
      | nil => rfl
      | cons c r =>
        rw [noMarker] at hm
        simp only [Bool.and_eq_true] at hm
        obtain ⟨hcond, hrest⟩ := hm
        have hnc : ¬ (b = 255 ∧ isRST c = true) := by
          intro hx
          obtain ⟨h1, h2⟩ := hx
          rw [if_pos h1] at hcond
          simp [h2] at hcond
        rw [splitAtMarkers, if_neg (by simpa using hnc)]
        rw [ih (c :: r) (by simp at hl ⊢; omega) hrest]

lemma splitAtMarkers_noMarker (s : List Nat) (hm : noMarker s = true) : splitAtMarkers s = [s] :=
  splitAtMarkers_noMarker_aux s.length s le_rfl hm

lemma splitAtMarkers_append_aux :
    ∀ (n : Nat) (s : List Nat), s.length ≤ n → noMarker s = true →
      ∀ (j : Nat) (rest : List Nat), isRST j = true →
        splitAtMarkers (s ++ 255 :: j :: rest) = s :: splitAtMarkers rest := by
  intro n
  induction n with
  | zero =>
    intro s hl hm j rest hj
    have h0 : s = [] := List.eq_nil_of_length_eq_zero (by omega)
    subst h0
    rw [List.nil_append, splitAtMarkers, if_pos ⟨rfl, hj⟩]
  | succ m ih =>
    intro s hl hm j rest hj
    cases s with
    | nil => rw [List.nil_append, splitAtMarkers, if_pos ⟨rfl, hj⟩]
    | cons b tail =>
      cases tail with
      | nil =>
        rw [noMarker] at hm
        simp only [decide_eq_true_eq] at hm
        have hsp : splitAtMarkers (255 :: j :: rest) = [] :: splitAtMarkers rest := by
          rw [splitAtMarkers, if_pos ⟨rfl, hj⟩]
        rw [show [b] ++ 255 :: j :: rest = b :: 255 :: j :: rest by simp]
        rw [splitAtMarkers, if_neg (by simp [isRST])]
        rw [hsp]
      | cons c tl =>
        rw [noMarker] at hm
        simp only [Bool.and_eq_true] at hm
        obtain ⟨hcond, hrest⟩ := hm
        have hnc : ¬ (b = 255 ∧ isRST c = true) := by
          intro hx
          obtain ⟨h1, h2⟩ := hx
          rw [if_pos h1] at hcond
          simp [h2] at hcond
        rw [show (b :: c :: tl) ++ 255 :: j :: rest = b :: ((c :: tl) ++ 255 :: j :: rest) by simp]
        have htl : (c :: tl) ++ 255 :: j :: rest = c :: (tl ++ 255 :: j :: rest) := by simp
        rw [htl, splitAtMarkers, if_neg (by simpa using hnc)]
        have hihres := ih (c :: tl) (by simp at hl ⊢; omega) hrest j rest hj
        rw [htl] at hihres
        rw [hihres]

lemma splitAtMarkers_append (s : List Nat) (hm : noMarker s = true)
    (j : Nat) (rest : List Nat) (hj : isRST j = true) :
    splitAtMarkers (s ++ 255 :: j :: rest) = s :: splitAtMarkers rest :=
  splitAtMarkers_append_aux s.length s le_rfl hm j rest hj

lemma isRST_markerRST (i : Nat) : isRST (208 + i % 8) = true := by
  have : i % 8 < 8 := Nat.mod_lt i (by norm_num)
  simp only [isRST, Bool.and_eq_true, decide_eq_true_eq]
  omega

lemma splitAtMarkers_compactFrom :
    ∀ (segs : List (List Nat)) (i : Nat), segs ≠ [] → (∀ s ∈ segs, noMarker s = true) →
      splitAtMarkers (compactFrom i segs) = segs := by
  intro segs
  induction segs with
  | nil => intro i h hall; exact absurd rfl h
  | cons s ss ih =>
    intro i hne hall
    cases ss with
    | nil =>
      rw [compactFrom]
      exact splitAtMarkers_noMarker s (hall s (by simp))
    | cons s2 ss2 =>
      rw [compactFrom]
      rw [show markerRST i ++ compactFrom (i + 1) (s2 :: ss2)
          = 255 :: (208 + i % 8) :: compactFrom (i + 1) (s2 :: ss2) by simp [markerRST]]
      rw [splitAtMarkers_append s (hall s (by simp)) (208 + i % 8)
        (compactFrom (i + 1) (s2 :: ss2)) (isRST_markerRST i)]
      rw [ih (i + 1) (by simp) (fun x hx => hall x (by simp [hx]))]

/-- Modelled from the spec: per-segment byte production (spec §4.2 steps 4–5):
pack the emitted bits into bytes and byte-stuff the result. -/
def packSegment (bits : List Bool) : List Nat := stuff (bitsToBytes bits)

/-- Modelled from the spec: the Parallel Entropy Encoder's per-segment output
(`data_compressed` of `gpujpeg_encoder.h` lines 137–140): the self-contained
stuffed byte sequence of one segment, or the encoding-data error. -/
def encodeSegmentBytes (T : Nat → HuffTable × HuffTable) (blocks : List Block) : Option (List Nat) :=
  (encodeSegment T blocks).map packSegment

/-- Modelled from the spec: reference-decoder unpacking of one segment's bytes. -/
def unpackSegment (bytes : List Nat) : List Bool := bytesToBits (unstuff bytes)

/-- Modelled from the spec: reference decoding of one segment with all DC
predictors reset to 0, as JPEG restart-marker semantics mandate (spec §4.2
step 1, §8). -/
def decodeSegmentBytes (T : Nat → HuffTable × HuffTable) (plan : List Nat) (bytes : List Nat) :
    Option (List Block) :=
  match decodeBlocks T (fun _ => 0) plan (unpackSegment bytes) with
  | some (bs, _) => some bs
  | none => none

/-- Modelled from the spec: Option-valued map over a list, failing when any
element fails — the first-error-aborts propagation policy of spec §7. -/
def mapOpt {α β : Type} (f : α → Option β) : List α → Option (List β)
  | [] => some []
  | a :: rest =>
    match f a, mapOpt f rest with
    | some b, some bs => some (b :: bs)
    | _, _ => none

/-- Modelled from the spec: the entropy-coding core end to end — encode every
segment independently, then compact the per-segment buffers with restart
markers in segment order (spec §2 data flow: Parallel Entropy Encoder →
Stream Compactor). -/
def gpujpegEncodeScan (T : Nat → HuffTable × HuffTable) (segs : List (List Block)) :
    Option (List Nat) :=
  (mapOpt (encodeSegmentBytes T) segs).map (compactFrom 0)

/-- Modelled from the spec: the reference decoder of spec §8 — split the
Compacted Output Buffer at restart markers, then decode each piece with fresh
DC predictors, given the per-segment component plans from the Segmentation
Plan. -/
def referenceDecode (T : Nat → HuffTable × HuffTable) (plans : List (List Nat)) (buf : List Nat) :
    Option (List (List Block)) :=
  if (splitAtMarkers buf).length = plans.length then
    mapOpt (fun pc => decodeSegmentBytes T pc.1 pc.2) (plans.zip (splitAtMarkers buf))
  else none

lemma decodeSegmentBytes_encodeSegmentBytes (T : Nat → HuffTable × HuffTable)
    (hT : ∀ cc, (T cc).1.validB = true ∧ (T cc).2.validB = true)
    (blocks : List Block) (hacs : ∀ b ∈ blocks, b.acs.length = 63) {bytes : List Nat}
    (henc : encodeSegmentBytes T blocks = some bytes) :
    decodeSegmentBytes T (blocks.map Block.comp) bytes = some blocks := by
  rw [encodeSegmentBytes] at henc
  cases he : encodeSegment T blocks with
  | none => rw [he] at henc; simp at henc
  | some bits =>
    rw [he] at henc
    have hbytes : bytes = packSegment bits := by simpa using henc.symm
    subst hbytes
    rw [encodeSegment] at he
    rw [decodeSegmentBytes, unpackSegment, packSegment, unstuff_stuff, bytesToBits_bitsToBytes,
      padBits]
    rw [decodeBlocks_encodeBlocks T hT blocks (fun _ => 0) bits hacs he
      (List.replicate ((8 - bits.length % 8) % 8) true)]

lemma noMarker_packSegment (bits : List Bool) : noMarker (packSegment bits) = true :=
  noMarker_of_wellStuffed _ (wellStuffed_stuff _)

lemma referenceDecode_encodeScan_aux (T : Nat → HuffTable × HuffTable)
    (hT : ∀ cc, (T cc).1.validB = true ∧ (T cc).2.validB = true) :
    ∀ (segs : List (List Block)) (bss : List (List Nat)),
      (∀ seg ∈ segs, ∀ b ∈ seg, b.acs.length = 63) →
      mapOpt (encodeSegmentBytes T) segs = some bss →
      mapOpt (fun pc => decodeSegmentBytes T pc.1 pc.2)
          ((segs.map (fun seg => seg.map Block.comp)).zip bss) = some segs
        ∧ (∀ s ∈ bss, noMarker s = true) ∧ bss.length = segs.length := by
  intro segs
  induction segs with
  | nil =>
    intro bss hacs hmap
    rw [mapOpt] at hmap
    have h0 : bss = [] := by simpa using hmap.symm
    subst h0
    exact ⟨rfl, by simp, rfl⟩
  | cons seg rest ih =>
    intro bss hacs hmap
    rw [mapOpt] at hmap
    cases he : encodeSegmentBytes T seg with
    | none => rw [he] at hmap; simp at hmap
    | some b0 =>
      cases hr : mapOpt (encodeSegmentBytes T) rest with
      | none => rw [he, hr] at hmap; simp at hmap
      | some brest =>
        rw [he, hr] at hmap
        have hbss : bss = b0 :: brest := by simpa using hmap.symm
        subst hbss
        obtain ⟨ih1, ih2, ih3⟩ := ih brest (fun s hs b hb => hacs s (by simp [hs]) b hb) hr
        refine ⟨?_, ?_, by simp [ih3]⟩
        · rw [List.map_cons, List.zip_cons_cons, mapOpt]
          rw [decodeSegmentBytes_encodeSegmentBytes T hT seg
            (fun b hb => hacs seg (by simp) b hb) he]
          rw [ih1]
        · intro s hs
          rcases List.mem_cons.mp hs with h | h
          · subst h
            have hb0 : encodeSegmentBytes T seg = some s := he
            rw [encodeSegmentBytes] at hb0
            cases hee : encodeSegment T seg with
            | none => rw [hee] at hb0; simp at hb0
            | some bits =>
              rw [hee] at hb0
              have : s = packSegment bits := by simpa using hb0.symm
              subst this
              exact noMarker_packSegment bits
          · exact ih2 s h

/-- Mirrors `struct gpujpeg_component_sampling_factor` of the absent
`gpujpeg_common.h` (used at gpujpeg_encoder.h line 54): a horizontal ×
vertical sampling-factor pair, C `int`-valued. -/
structure gpujpeg_component_sampling_factor where
  horizontal : Int
  vertical : Int
deriving DecidableEq

/-- Mirrors `struct gpujpeg_image_parameters` of the absent `gpujpeg_common.h`
(used at gpujpeg_encoder.h line 108). -/
structure gpujpeg_image_parameters where
  width : Int
  height : Int
  comp_count : Int
deriving DecidableEq

/-- Mirrors `struct gpujpeg_encoder_parameters` (gpujpeg_encoder.h lines
40–55); the fixed-size sampling-factor array becomes a list. -/
structure gpujpeg_encoder_parameters where
  quality : Int
  restart_interval : Int
  interleaved : Int
  sampling_factor : List gpujpeg_component_sampling_factor
deriving DecidableEq

/-- Modelled from the spec: `GPUJPEG_MAX_COMPONENT_COUNT` of the absent
`gpujpeg_common.h` (the "maximum supported component count" of spec §4.1). -/
def GPUJPEG_MAX_COMPONENT_COUNT : Nat := 3

/-- Modelled from the spec: round a dimension up to the next multiple of the
8-sample block size (spec §4.1). -/
def roundUp8 (n : Nat) : Nat := ((n + 7) / 8) * 8

/-- Mirrors `struct gpujpeg_encoder_component` (gpujpeg_encoder.h lines
60–83); the `int` geometry fields hold non-negative values. -/
structure gpujpeg_encoder_component where
  sampling_factor : gpujpeg_component_sampling_factor
  width : Nat
  height : Nat
  data_width : Nat
  data_height : Nat
  data_size : Nat
  mcu_size : Nat
  mcu_count : Nat
  segment_count : Nat
deriving DecidableEq

/-- Modelled from the spec: segments per scan — ceil(M/R) when the restart
interval R is positive, else exactly one segment for the whole scan
(spec §4.1). -/
def segPerScan (M R : Nat) : Nat := if R = 0 then 1 else (M + R - 1) / R

/-- Modelled from the spec: covered MCUs of the last segment of a scan of M
MCUs under restart interval R (the remainder segment of spec §8). -/
def lastSegmentMCUs (M R : Nat) : Nat := M - (segPerScan M R - 1) * R

/-- Modelled from the spec: the Geometry Resolver's per-component computation
(spec §4.1): pixel dimensions scaled by the component's sampling factor
relative to the maximum factor, rounded up to multiples of 8; MCU size
8×8×h×v when interleaved and 8×8 otherwise; MCU count the padded area divided
by the MCU size; segment count from the restart interval. -/
def gpujpeg_encoder_component_resolve (imgW imgH maxH maxV : Nat) (ilv : Bool) (R : Nat)
    (f : gpujpeg_component_sampling_factor) : gpujpeg_encoder_component :=
  let w := imgW * f.horizontal.toNat / maxH
  let h := imgH * f.vertical.toNat / maxV
  let dw := roundUp8 w
  let dh := roundUp8 h
  let ms := if ilv then 64 * f.horizontal.toNat * f.vertical.toNat else 64
  let mc := dw * dh / ms
  { sampling_factor := f, width := w, height := h, data_width := dw, data_height := dh,
    data_size := dw * dh, mcu_size := ms, mcu_count := mc,
    segment_count := segPerScan mc R }

/-- Mirrors `struct gpujpeg_encoder_segment` (gpujpeg_encoder.h lines 89–97). -/
structure gpujpeg_encoder_segment where
  scan_index : Nat
  data_compressed_index : Nat
  data_compressed_size : Nat
deriving DecidableEq

/-- Mirrors `struct gpujpeg_encoder` (gpujpeg_encoder.h lines 102–161),
restricted to the parameter, geometry and segmentation fields the claims are
about; device pointers and raw buffers are outside the shallow embedding. -/
structure gpujpeg_encoder where
  param : gpujpeg_encoder_parameters
  param_image : gpujpeg_image_parameters
  component : List gpujpeg_encoder_component
  data_width : Nat
  data_height : Nat
  data_size : Nat
  mcu_size : Nat
  mcu_count : Nat
  segment_count : Nat
deriving DecidableEq

/-- Modelled from the spec: maximum horizontal sampling factor among all
components (spec §4.1). -/
def maxSamplingH (fs : List gpujpeg_component_sampling_factor) : Nat :=
  fs.foldr (fun f m => max f.horizontal.toNat m) 0

/-- Modelled from the spec: maximum vertical sampling factor among all
components (spec §4.1). -/
def maxSamplingV (fs : List gpujpeg_component_sampling_factor) : Nat :=
  fs.foldr (fun f m => max f.vertical.toNat m) 0

/-- Modelled from the spec: the component descriptors the Geometry Resolver
produces for the configuration (spec §4.1). -/
def gpujpeg_encoder_components (pi : gpujpeg_image_parameters)
    (p : gpujpeg_encoder_parameters) : List gpujpeg_encoder_component :=
  p.sampling_factor.map
    (gpujpeg_encoder_component_resolve pi.width.toNat pi.height.toNat
      (maxSamplingH p.sampling_factor) (maxSamplingV p.sampling_factor)
      (p.interleaved != 0) p.restart_interval.toNat)

/-- Modelled from the spec: the Geometry Resolver's configuration checks
(spec §4.1 Failure, §7): every sampling factor positive, component count
within the supported maximum, and no zero MCU size; an error is reported —
never a silent clamp. -/
def gpujpeg_configuration_check (pi : gpujpeg_image_parameters)
    (p : gpujpeg_encoder_parameters) : Bool :=
  p.sampling_factor.all (fun f => decide (0 < f.horizontal) && decide (0 < f.vertical))
    && decide (pi.comp_count ≤ (GPUJPEG_MAX_COMPONENT_COUNT : Int))
    && (gpujpeg_encoder_components pi p).all (fun c => decide (c.mcu_size ≠ 0))

/-- Models `gpujpeg_encoder_create` (gpujpeg_encoder.h lines 179–180):
"encoder structure if succeeds, otherwise NULL" — `none` is NULL.  The body is
modelled from the spec (§4.1): geometry resolution and the segmentation plan
happen at creation; configuration errors are detected here, before any
parallel work, and yield NULL. -/
def gpujpeg_encoder_create (pi : gpujpeg_image_parameters) (p : gpujpeg_encoder_parameters) :
    Option gpujpeg_encoder :=
  if gpujpeg_configuration_check pi p then
    some
      { param := p, param_image := pi,
        component := gpujpeg_encoder_components pi p,
        data_width := roundUp8 pi.width.toNat,
        data_height := roundUp8 pi.height.toNat,
        data_size := roundUp8 pi.width.toNat * roundUp8 pi.height.toNat,
        mcu_size := 64 * maxSamplingH p.sampling_factor * maxSamplingV p.sampling_factor,
        mcu_count := roundUp8 pi.width.toNat * roundUp8 pi.height.toNat
          / (64 * maxSamplingH p.sampling_factor * maxSamplingV p.sampling_factor),
        segment_count :=
          if p.interleaved != 0 then
            segPerScan (roundUp8 pi.width.toNat * roundUp8 pi.height.toNat
              / (64 * maxSamplingH p.sampling_factor * maxSamplingV p.sampling_factor))
              p.restart_interval.toNat
          else ((gpujpeg_encoder_components pi p).map
            (fun c => c.segment_count)).sum }
  else none

/-- Models `gpujpeg_encoder_encode` (gpujpeg_encoder.h lines 191–192): "0 if
succeeds, otherwise nonzero", with the compressed buffer and its size placed
in out-parameters — modelled as the status int paired with the optional
(buffer, size) pair.  The body is modelled from the spec (§2, §7): run the
segmented entropy coder and compactor; the first error aborts with no
output. -/
def gpujpeg_encoder_encode (T : Nat → HuffTable × HuffTable) (segs : List (List Block)) :
    Int × Option (List Nat × Nat) :=
  match gpujpegEncodeScan T segs with
  | some buf => (0, some (buf, buf.length))
  | none => (-1, none)

/-- Models `gpujpeg_encoder_destroy` (gpujpeg_encoder.h lines 200–201):
releases the session's buffers and returns 0; modelled from the spec (§3
ownership — the shallow embedding has no buffers to free, and the call always
succeeds with 0). -/
def gpujpeg_encoder_destroy (_e : gpujpeg_encoder) : Int := 0

/-- Modelled from the spec: the Stream Compactor's offset pass (spec §4.3
steps 1–2) — an exclusive prefix sum over the segments' encoded sizes, each
inter-segment gap accounting for the 2 restart-marker bytes, written into
`data_compressed_index` of each descriptor in segment order. -/
def gpujpeg_compactor_offsets (off : Nat) :
    List gpujpeg_encoder_segment → List gpujpeg_encoder_segment
  | [] => []
  | s :: rest =>
    { s with data_compressed_index := off }
      :: gpujpeg_compactor_offsets (off + s.data_compressed_size + 2) rest

/-- Modelled from the spec: the concurrency model of spec §5 — the segments'
encoding passes run in an arbitrary execution order, each writing its own
result into an initially undefined (all-`none`) result table slot. -/
def runSchedule (f : Nat → Option (List Nat)) (order : List Nat) : Nat → Option (List Nat) :=
  order.foldl (fun acc i => Function.update acc i (f i)) (fun _ => none)

/-- Modelled from the spec: the full encode under an explicit scheduling order
of the segment passes; the gather step reads the result table in segment
order and the Stream Compactor concatenates (spec §5: segment order is the
only ordering invariant). -/
def encodeWithSchedule (T : Nat → HuffTable × HuffTable) (segs : List (List Block))
    (order : List Nat) : Option (List Nat) :=
  (mapOpt (runSchedule (fun i => (segs[i]?).bind (encodeSegmentBytes T)) order)
    (List.range segs.length)).map (compactFrom 0)

lemma gpujpeg_compactor_offsets_get :
    ∀ (descs : List gpujpeg_encoder_segment) (off i : Nat), i < descs.length →
      ((gpujpeg_compactor_offsets off descs)[i]?).map (fun d => d.data_compressed_index)
        = some (off + ((descs.take i).map (fun d => d.data_compressed_size)).sum + i * 2) := by
  intro descs
  induction descs with
  | nil => intro off i h; simp at h
  | cons d rest ih =>
    intro off i h
    cases i with
    | zero => simp [gpujpeg_compactor_offsets]
    | succ k =>
      rw [gpujpeg_compactor_offsets]
      have hk : k < rest.length := by simp at h; omega
      have hrec := ih (off + d.data_compressed_size + 2) k hk
      simp only [List.getElem?_cons_succ]
      rw [hrec]
      congr 1
      simp only [List.take_succ_cons, List.map_cons, List.sum_cons]
      omega

lemma compactFrom_length :
    ∀ (segs : List (List Nat)) (i : Nat), segs ≠ [] →
      (compactFrom i segs).length = (segs.map List.length).sum + (segs.length - 1) * 2 := by
  intro segs
  induction segs with
  | nil => intro i h; exact absurd rfl h
  | cons s ss ih =>
    intro i hne
    cases ss with
    | nil => simp [compactFrom]
    | cons s2 ss2 =>
      rw [compactFrom]
      have hrec := ih (i + 1) (by simp)
      simp only [List.length_append, markerRST, List.length_cons, hrec,
        List.map_cons, List.sum_cons]
      simp
      omega

lemma compactFrom_take_head (s : List Nat) (ss : List (List Nat)) (i : Nat) :
    (compactFrom i (s :: ss)).take s.length = s := by
  cases ss with
  | nil => simp [compactFrom]
  | cons s2 ss2 =>
    rw [compactFrom]
    exact List.take_left s _

lemma compactFrom_suffix_last :
    ∀ (segs : List (List Nat)) (i : Nat) (h : segs ≠ []),
      ∃ pre, compactFrom i segs = pre ++ segs.getLast h := by
  intro segs
  induction segs with
  | nil => intro i h; exact absurd rfl h
  | cons s ss ih =>
    intro i hne
    cases ss with
    | nil => exact ⟨[], rfl⟩
    | cons s2 ss2 =>
      obtain ⟨pre, hpre⟩ := ih (i + 1) (by simp)
      refine ⟨s ++ markerRST i ++ pre, ?_⟩
      rw [compactFrom, hpre]
      have hlast : (s :: s2 :: ss2).getLast hne = (s2 :: ss2).getLast (by simp) :=
        List.getLast_cons (by simp)
      rw [hlast]
      simp [List.append_assoc]

lemma runSchedule_eq (f : Nat → Option (List Nat)) :
    ∀ (order : List Nat) (init : Nat → Option (List Nat)) (j : Nat),
      order.foldl (fun acc i => Function.update acc i (f i)) init j
        = if j ∈ order then f j else init j := by
  intro order
  induction order with
  | nil => intro init j; simp
  | cons i rest ih =>
    intro init j
    rw [List.foldl_cons, ih]
    by_cases hj : j ∈ rest
    · simp [hj]
    · by_cases hij : j = i
      · subst hij
        simp [hj, Function.update_same]
      · simp [hj, hij, Function.update_noteq hij]

lemma mapOpt_congr {α β : Type} (f g : α → Option β) :
    ∀ l : List α, (∀ x ∈ l, f x = g x) → mapOpt f l = mapOpt g l := by
  intro l
  induction l with
  | nil => intro h; rfl
  | cons a rest ih =>
    intro h
    rw [mapOpt, mapOpt, h a (by simp), ih (fun x hx => h x (by simp [hx]))]

lemma mapOpt_map {α γ β : Type} (g : γ → α) (f : α → Option β) :
    ∀ l : List γ, mapOpt f (l.map g) = mapOpt (fun x => f (g x)) l := by
  intro l
  induction l with
  | nil => rfl
  | cons a rest ih => rw [List.map_cons, mapOpt, mapOpt, ih]

lemma mapOpt_range_index {α β : Type} (f : α → Option β) :
    ∀ l : List α,
      mapOpt (fun i => (l[i]?).bind f) (List.range l.length) = mapOpt f l := by
  intro l
  induction l with
  | nil => rfl
  | cons a rest ih =>
    rw [List.length_cons, List.range_succ_eq_map, mapOpt]
    rw [mapOpt_map]
    have hcong : mapOpt (fun x => ((a :: rest)[x + 1]?).bind f) (List.range rest.length)
        = mapOpt (fun i => (rest[i]?).bind f) (List.range rest.length) := by
      apply mapOpt_congr
      intro x _
      simp
    rw [hcong, ih]
    simp [mapOpt]

/-- Modelled from the spec: the DC differences the encoder actually codes for
a segment, paired with their owning component, threading the per-component
predictors from 0 exactly as the encoder does (spec §4.2 step 2). -/
def dcDiffsFrom (preds : Nat → Int) : List Block → List (Nat × Int)
  | [] => []
  | b :: rest =>
    (b.comp, b.dc - preds b.comp) :: dcDiffsFrom (Function.update preds b.comp b.dc) rest

lemma code_none_of_lt (t : HuffTable) (s : Nat) (h : ∀ e ∈ t.entries, e.1 < s) :
    t.code s = none := by
  cases hfind : t.entries.find? (fun e => e.1 == s) with
  | none => simp [HuffTable.code, hfind]
  | some e =>
    exfalso
    have hmem := List.mem_of_find?_eq_some hfind
    have hs := List.find?_some hfind
    simp at hs
    have := h e hmem
    omega

lemma code_none_of_mod (t : HuffTable) (run2 cat : Nat) (hcat : cat ≤ 15)
    (h : ∀ e ∈ t.entries, e.1 % 16 < cat) :
    t.code (16 * run2 + cat) = none := by
  cases hfind : t.entries.find? (fun e => e.1 == 16 * run2 + cat) with
  | none => simp [HuffTable.code, hfind]
  | some e =>
    exfalso
    have hmem := List.mem_of_find?_eq_some hfind
    have hs := List.find?_some hfind
    simp at hs
    have hlt := h e hmem
    rw [hs, Nat.mul_add_mod, Nat.mod_eq_of_lt (by omega)] at hlt
    omega

lemma encodeAC_none_of_bad (t : HuffTable) {v : Int} (hv0 : v ≠ 0)
    (hbad : ∀ e ∈ t.entries, e.1 % 16 < category v) :
    ∀ (l : List Int) (run : Nat), v ∈ l → encodeAC t run l = none := by
  intro l
  induction l with
  | nil => intro run h; simp at h
  | cons w rest ih =>
    intro run hmem
    rw [encodeAC]
    by_cases hw : w = 0
    · rw [if_pos hw]
      apply ih
      rcases List.mem_cons.mp hmem with h | h
      · rw [hw] at h
        exact absurd h hv0
      · exact h
    · rw [if_neg hw]
      by_cases hcatw : category w ≤ 15
      · rw [if_pos hcatw]
        rcases List.mem_cons.mp hmem with h | h
        · subst h
          have hnone := code_none_of_mod t (run % 16) (category v) hcatw hbad
          rw [hnone]
          cases hz : (if run < 16 then some ([] : List Bool) else
              (t.code 240).map (fun zc => (List.replicate (run / 16) zc).flatten)) <;>
            cases hr2 : encodeAC t 0 rest <;> rfl
        · have hrest := ih 0 h
          rw [hrest]
          cases hz : (if run < 16 then some ([] : List Bool) else
              (t.code 240).map (fun zc => (List.replicate (run / 16) zc).flatten)) <;>
            cases hc2 : t.code (16 * (run % 16) + category w) <;> rfl
      · rw [if_neg hcatw]

lemma encodeBlocksFrom_none_of_badDC (T : Nat → HuffTable × HuffTable) :
    ∀ (blocks : List Block) (preds : Nat → Int),
      (∃ p ∈ dcDiffsFrom preds blocks, ∀ e ∈ (T p.1).1.entries, e.1 < category p.2) →
      encodeBlocksFrom T preds blocks = none := by
  intro blocks
  induction blocks with
  | nil =>
    intro preds h
    obtain ⟨p, hp, _⟩ := h
    simp [dcDiffsFrom] at hp
  | cons b rest ih =>
    intro preds h
    obtain ⟨p, hp, hbad⟩ := h
    rw [dcDiffsFrom] at hp
    rw [encodeBlocksFrom]
    rcases List.mem_cons.mp hp with hh | hh
    · subst hh
      have hdc : encodeDC (T b.comp).1 (preds b.comp) b.dc = none := by
        rw [encodeDC, code_none_of_lt (T b.comp).1 _ hbad]
      have hblk : encodeBlock (T b.comp).1 (T b.comp).2 (preds b.comp) b = none := by
        rw [encodeBlock, hdc]
      rw [hblk]
    · have hrest := ih (Function.update preds b.comp b.dc) ⟨p, hh, hbad⟩
      rw [hrest]
      cases encodeBlock (T b.comp).1 (T b.comp).2 (preds b.comp) b <;> rfl

lemma encodeBlocksFrom_none_of_badAC (T : Nat → HuffTable × HuffTable) :
    ∀ (blocks : List Block) (preds : Nat → Int) (b : Block) (v : Int),
      b ∈ blocks → v ∈ b.acs → v ≠ 0 →
      (∀ e ∈ (T b.comp).2.entries, e.1 % 16 < category v) →
      encodeBlocksFrom T preds blocks = none := by
  intro blocks
  induction blocks with
  | nil => intro preds b v hb; simp at hb
  | cons b0 rest ih =>
    intro preds b v hb hv hv0 hbad
    rw [encodeBlocksFrom]
    rcases List.mem_cons.mp hb with hh | hh
    · subst hh
      have hac : encodeAC (T b.comp).2 0 b.acs = none :=
        encodeAC_none_of_bad (T b.comp).2 hv0 hbad b.acs 0 hv
      have hblk : encodeBlock (T b.comp).1 (T b.comp).2 (preds b.comp) b = none := by
        rw [encodeBlock, hac]
        cases encodeDC (T b.comp).1 (preds b.comp) b.dc <;> rfl
      rw [hblk]
    · have hrest := ih (Function.update preds b0.comp b0.dc) b v hh hv hv0 hbad
      rw [hrest]
      cases encodeBlock (T b0.comp).1 (T b0.comp).2 (preds b0.comp) b0 <;> rfl

lemma mapOpt_none_of_mem {α β : Type} (f : α → Option β) :
    ∀ l : List α, ∀ x ∈ l, f x = none → mapOpt f l = none := by
  intro l
  induction l with
  | nil => intro x hx; simp at hx
  | cons a rest ih =>
    intro x hx hfx
    rw [mapOpt]
    rcases List.mem_cons.mp hx with h | h
    · subst h
      rw [hfx]
    · rw [ih x h hfx]
      cases f a <;> rfl

lemma wellStuffed_index_aux :
    ∀ (n : Nat) (l : List Nat), l.length ≤ n → wellStuffed l = true →
      ∀ i, l[i]? = some 255 → l[i + 1]? = some 0 := by
  intro n
  induction n with
  | zero =>
    intro l hl hw i hi
    have h0 : l = [] := List.eq_nil_of_length_eq_zero (by omega)
    subst h0
    simp at hi
  | succ m ih =>
    intro l hl hw i hi
    cases l with
    | nil => simp at hi
    | cons b rest =>
      cases rest with
      | nil =>
        rw [wellStuffed] at hw
        simp only [decide_eq_true_eq] at hw
        cases i with
        | zero => simp at hi; omega
        | succ k => simp at hi
      | cons c r =>
        by_cases hb : b = 255
        · subst hb
          rw [wellStuffed, if_pos rfl] at hw
          simp only [Bool.and_eq_true, decide_eq_true_eq] at hw
          obtain ⟨hc0, hwr⟩ := hw
          subst hc0
          cases i with
          | zero => simp
          | succ k =>
            cases k with
            | zero => simp at hi
            | succ k2 =>
              simp only [List.getElem?_cons_succ] at hi ⊢
              have := ih r (by simp at hl; omega) hwr k2 hi
              simpa using this
        · rw [wellStuffed, if_neg hb] at hw
          cases i with
          | zero => simp at hi; exact absurd hi hb
          | succ k =>
            simp only [List.getElem?_cons_succ] at hi ⊢
            have := ih (c :: r) (by simp at hl ⊢; omega) hw k hi
            simpa using this

/-- C1: for every input whose entropy-coded payload the encoder produces,
decoding the Compacted Output Buffer segment-by-segment with the reference
decoder — splitting at each restart marker and resetting the DC predictors
there — reconstructs exactly the quantized coefficients that were given as
input (round-trip law between `gpujpegEncodeScan` and `referenceDecode`),
for canonical (prefix-free) Code Tables and standard 63-AC blocks. -/
theorem c1_roundtrip_law (T : Nat → HuffTable × HuffTable) (segs : List (List Block))
    (buf : List Nat)
    (hT : ∀ cc, (T cc).1.validB = true ∧ (T cc).2.validB = true)
    (hne : segs ≠ [])
    (hacs : ∀ seg ∈ segs, ∀ b ∈ seg, b.acs.length = 63)
    (henc : gpujpegEncodeScan T segs = some buf) :
    referenceDecode T (segs.map (fun seg => seg.map Block.comp)) buf = some segs := by
  rw [gpujpegEncodeScan] at henc
  cases hm : mapOpt (encodeSegmentBytes T) segs with
  | none => rw [hm] at henc; simp at henc
  | some bss =>
    rw [hm] at henc
    have hbuf : buf = compactFrom 0 bss := by simpa using henc.symm
    subst hbuf
    obtain ⟨hdec, hnm, hlen⟩ := referenceDecode_encodeScan_aux T hT segs bss hacs hm
    have hbssne : bss ≠ [] := by
      intro h
      subst h
      simp at hlen
      exact hne (List.eq_nil_of_length_eq_zero hlen.symm)
    have hsplit : splitAtMarkers (compactFrom 0 bss) = bss :=
      splitAtMarkers_compactFrom bss 0 hbssne hnm
    rw [referenceDecode, hsplit]
    rw [if_pos (by simp [hlen])]
    exact hdec

/-- Witness for C1: a concrete two-segment luma-only input round-trips through
the compacted, restart-marker-separated buffer. -/
theorem c1_roundtrip_law_witness :
    gpujpegEncodeScan (fun _ => (⟨[(0, [false]), (1, [true])]⟩, ⟨[(0, [false])]⟩))
        [[⟨0, 1, List.replicate 63 0⟩], [⟨0, 0, List.replicate 63 0⟩]]
      = some [223, 255, 208, 63]
    ∧ referenceDecode (fun _ => (⟨[(0, [false]), (1, [true])]⟩, ⟨[(0, [false])]⟩))
        (([[⟨0, 1, List.replicate 63 0⟩], [⟨0, 0, List.replicate 63 0⟩]] :
          List (List Block)).map (fun seg => seg.map Block.comp))
        [223, 255, 208, 63]
      = some [[⟨0, 1, List.replicate 63 0⟩], [⟨0, 0, List.replicate 63 0⟩]] :=
  ⟨by decide,
    c1_roundtrip_law _ _ _ (fun _ => ⟨by decide, by decide⟩) (by decide) (by decide)
      (by decide)⟩

/-- C2: the Stream Compactor writes into segment i's descriptor (0-based) the
offset L₁+⋯+Lᵢ plus i times the 2-byte restart-marker count; the Compacted
Output Buffer's total length is the sum of the segment lengths plus (n−1)
marker lengths; and no marker precedes the first segment (it sits at offset 0)
or follows the last (the buffer ends with it). -/
theorem c2_prefix_sum_offsets (descs : List gpujpeg_encoder_segment) (i : Nat)
    (hi : i < descs.length) (bs : List (List Nat)) (hbs : bs ≠ []) :
    ((gpujpeg_compactor_offsets 0 descs)[i]?).map (fun d => d.data_compressed_index)
        = some (((descs.take i).map (fun d => d.data_compressed_size)).sum + i * 2)
      ∧ (∀ j, (markerRST j).length = 2)
      ∧ (compactFrom 0 bs).length = (bs.map List.length).sum + (bs.length - 1) * 2
      ∧ (compactFrom 0 bs).take (bs.head hbs).length = bs.head hbs
      ∧ ∃ pre, compactFrom 0 bs = pre ++ bs.getLast hbs := by
  refine ⟨?_, fun j => rfl, compactFrom_length bs 0 hbs, ?_,
    compactFrom_suffix_last bs 0 hbs⟩
  · have := gpujpeg_compactor_offsets_get descs 0 i hi
    simpa using this
  · cases bs with
    | nil => exact absurd rfl hbs
    | cons s ss => exact compactFrom_take_head s ss 0

/-- Witness for C2 at a concrete descriptor table and segment list. -/
theorem c2_prefix_sum_offsets_witness :
    ((gpujpeg_compactor_offsets 0 [⟨0, 0, 5⟩, ⟨0, 0, 7⟩])[1]?).map
        (fun d => d.data_compressed_index)
      = some (((([⟨0, 0, 5⟩, ⟨0, 0, 7⟩] : List gpujpeg_encoder_segment).take 1).map
          (fun d => d.data_compressed_size)).sum + 1 * 2)
    ∧ (∀ j, (markerRST j).length = 2)
    ∧ (compactFrom 0 [[1, 2], [3]]).length
        = (([[1, 2], [3]] : List (List Nat)).map List.length).sum
          + (([[1, 2], [3]] : List (List Nat)).length - 1) * 2
    ∧ (compactFrom 0 [[1, 2], [3]]).take
          (([[1, 2], [3]] : List (List Nat)).head (by decide)).length
        = ([[1, 2], [3]] : List (List Nat)).head (by decide)
    ∧ ∃ pre, compactFrom 0 [[1, 2], [3]]
        = pre ++ ([[1, 2], [3]] : List (List Nat)).getLast (by decide) :=
  c2_prefix_sum_offsets [⟨0, 0, 5⟩, ⟨0, 0, 7⟩] 1 (by decide) [[1, 2], [3]] (by decide)

/-- C3 as stated is false on the model: in interleaved mode with 2×2 sampling
on an 8×8 image — a configuration the Geometry Resolver accepts as valid —
the component's MCU count times its MCU size is 0 × 256 = 0, while the padded
area is 8 × 8 = 64. -/
theorem c3_counterexample :
    gpujpeg_configuration_check ⟨8, 8, 1⟩ ⟨75, 0, 1, [⟨2, 2⟩]⟩ = true
    ∧ ¬ ((gpujpeg_encoder_component_resolve 8 8 2 2 true 0 ⟨2, 2⟩).mcu_count
          * (gpujpeg_encoder_component_resolve 8 8 2 2 true 0 ⟨2, 2⟩).mcu_size
        = (gpujpeg_encoder_component_resolve 8 8 2 2 true 0 ⟨2, 2⟩).data_width
          * (gpujpeg_encoder_component_resolve 8 8 2 2 true 0 ⟨2, 2⟩).data_height) := by
  decide

/-- C3 amended: for every component — interleaved or not — the Geometry
Resolver's padded data width and height are the smallest multiples of 8 that
are ≥ the component's scaled real dimensions; and MCU count × MCU size equals
the padded area exactly in non-interleaved mode, and in interleaved mode
whenever the MCU size divides the padded area (the original claim also
asserted the product law for interleaved components whose MCU size does not
divide the padded area, where it fails). -/
theorem c3_geometry_amended (imgW imgH maxH maxV R : Nat) (ilv : Bool)
    (f : gpujpeg_component_sampling_factor) (g : gpujpeg_encoder_component)
    (hg : g = gpujpeg_encoder_component_resolve imgW imgH maxH maxV ilv R f) :
    g.data_width % 8 = 0 ∧ g.width ≤ g.data_width
    ∧ (∀ m, m % 8 = 0 → g.width ≤ m → g.data_width ≤ m)
    ∧ g.data_height % 8 = 0 ∧ g.height ≤ g.data_height
    ∧ (∀ m, m % 8 = 0 → g.height ≤ m → g.data_height ≤ m)
    ∧ (ilv = false → g.mcu_count * g.mcu_size = g.data_width * g.data_height)
    ∧ (g.mcu_size ∣ g.data_width * g.data_height →
        g.mcu_count * g.mcu_size = g.data_width * g.data_height) := by
  subst hg
  simp only [gpujpeg_encoder_component_resolve, roundUp8]
  have h8w : (8 : Nat) ∣ (imgW * f.horizontal.toNat / maxH + 7) / 8 * 8 :=
    dvd_mul_left 8 _
  have h8h : (8 : Nat) ∣ (imgH * f.vertical.toNat / maxV + 7) / 8 * 8 :=
    dvd_mul_left 8 _
  refine ⟨by omega, by omega, fun m h1 h2 => by omega, by omega, by omega,
    fun m h1 h2 => by omega, ?_, ?_⟩
  · intro hilv
    subst hilv
    simp only [Bool.false_eq_true, if_false]
    exact Nat.div_mul_cancel (mul_dvd_mul h8w h8h)
  · intro hdvd
    exact Nat.div_mul_cancel hdvd

/-- Witness for C3 amended at a non-interleaved 2×2-sampled 20×12 image. -/
theorem c3_geometry_amended_witness :
    (gpujpeg_encoder_component_resolve 20 12 2 2 false 4 ⟨2, 2⟩).data_width % 8 = 0
    ∧ (gpujpeg_encoder_component_resolve 20 12 2 2 false 4 ⟨2, 2⟩).width
        ≤ (gpujpeg_encoder_component_resolve 20 12 2 2 false 4 ⟨2, 2⟩).data_width
    ∧ (∀ m, m % 8 = 0 →
        (gpujpeg_encoder_component_resolve 20 12 2 2 false 4 ⟨2, 2⟩).width ≤ m →
        (gpujpeg_encoder_component_resolve 20 12 2 2 false 4 ⟨2, 2⟩).data_width ≤ m)
    ∧ (gpujpeg_encoder_component_resolve 20 12 2 2 false 4 ⟨2, 2⟩).data_height % 8 = 0
    ∧ (gpujpeg_encoder_component_resolve 20 12 2 2 false 4 ⟨2, 2⟩).height
        ≤ (gpujpeg_encoder_component_resolve 20 12 2 2 false 4 ⟨2, 2⟩).data_height
    ∧ (∀ m, m % 8 = 0 →
        (gpujpeg_encoder_component_resolve 20 12 2 2 false 4 ⟨2, 2⟩).height ≤ m →
        (gpujpeg_encoder_component_resolve 20 12 2 2 false 4 ⟨2, 2⟩).data_height ≤ m)
    ∧ ((false : Bool) = false →
        (gpujpeg_encoder_component_resolve 20 12 2 2 false 4 ⟨2, 2⟩).mcu_count
          * (gpujpeg_encoder_component_resolve 20 12 2 2 false 4 ⟨2, 2⟩).mcu_size
        = (gpujpeg_encoder_component_resolve 20 12 2 2 false 4 ⟨2, 2⟩).data_width
          * (gpujpeg_encoder_component_resolve 20 12 2 2 false 4 ⟨2, 2⟩).data_height)
    ∧ ((gpujpeg_encoder_component_resolve 20 12 2 2 false 4 ⟨2, 2⟩).mcu_size
        ∣ (gpujpeg_encoder_component_resolve 20 12 2 2 false 4 ⟨2, 2⟩).data_width
          * (gpujpeg_encoder_component_resolve 20 12 2 2 false 4 ⟨2, 2⟩).data_height →
        (gpujpeg_encoder_component_resolve 20 12 2 2 false 4 ⟨2, 2⟩).mcu_count
          * (gpujpeg_encoder_component_resolve 20 12 2 2 false 4 ⟨2, 2⟩).mcu_size
        = (gpujpeg_encoder_component_resolve 20 12 2 2 false 4 ⟨2, 2⟩).data_width
          * (gpujpeg_encoder_component_resolve 20 12 2 2 false 4 ⟨2, 2⟩).data_height) :=
  c3_geometry_amended 20 12 2 2 4 false ⟨2, 2⟩ _ rfl

/-- C4: with restart interval 0 a scan yields exactly one segment regardless
of size; with R > 0 and M > 0 MCUs the segment count k satisfies
(k−1)·R < M ≤ k·R (so k = ⌈M/R⌉) and the last segment covers between 1 and R
MCUs; the encoder's total segment count is the per-scan sum — the single
interleaved scan's count, or the sum over the per-component scans. -/
theorem c4_segment_count_law (M R : Nat) (hM : 0 < M) (hR : 0 < R) :
    segPerScan M 0 = 1
    ∧ (segPerScan M R - 1) * R < M ∧ M ≤ segPerScan M R * R
    ∧ 1 ≤ lastSegmentMCUs M R ∧ lastSegmentMCUs M R ≤ R
    ∧ (∀ pi p e, gpujpeg_encoder_create pi p = some e → p.interleaved = 0 →
        e.segment_count = (e.component.map (fun c => c.segment_count)).sum)
    ∧ (∀ pi p e, gpujpeg_encoder_create pi p = some e → p.interleaved ≠ 0 →
        e.segment_count = segPerScan e.mcu_count p.restart_interval.toNat) := by
  have hks : segPerScan M R = (M + R - 1) / R := by
    rw [segPerScan, if_neg (by omega)]
  have hk1 : 1 ≤ (M + R - 1) / R := by
    rw [Nat.le_div_iff_mul_le hR]
    omega
  have hub : M + R - 1 < ((M + R - 1) / R + 1) * R :=
    (Nat.div_lt_iff_lt_mul hR).mp (Nat.lt_succ_self _)
  have hlb : (M + R - 1) / R * R ≤ M + R - 1 := Nat.div_mul_le_self _ _
  rw [Nat.succ_mul] at hub
  have hsub : ((M + R - 1) / R - 1) * R = (M + R - 1) / R * R - R := Nat.sub_one_mul _ _
  refine ⟨by rw [segPerScan, if_pos rfl], by rw [hks]; omega, by rw [hks]; omega,
    ?_, ?_, ?_, ?_⟩
  · rw [lastSegmentMCUs, hks]
    omega
  · rw [lastSegmentMCUs, hks]
    omega
  · intro pi p e hcr hint
    rw [gpujpeg_encoder_create] at hcr
    by_cases hok : gpujpeg_configuration_check pi p
    · rw [if_pos hok] at hcr
      have he := (Option.some.injEq _ _).mp hcr
      subst he
      simp [hint]
    · rw [if_neg hok] at hcr
      simp at hcr
  · intro pi p e hcr hint
    rw [gpujpeg_encoder_create] at hcr
    by_cases hok : gpujpeg_configuration_check pi p
    · rw [if_pos hok] at hcr
      have he := (Option.some.injEq _ _).mp hcr
      subst he
      simp [hint]
    · rw [if_neg hok] at hcr
      simp at hcr

/-- Witness for C4 at M = 13 MCUs, restart interval R = 4. -/
theorem c4_segment_count_law_witness :
    segPerScan 13 0 = 1
    ∧ (segPerScan 13 4 - 1) * 4 < 13 ∧ 13 ≤ segPerScan 13 4 * 4
    ∧ 1 ≤ lastSegmentMCUs 13 4 ∧ lastSegmentMCUs 13 4 ≤ 4
    ∧ (∀ pi p e, gpujpeg_encoder_create pi p = some e → p.interleaved = 0 →
        e.segment_count = (e.component.map (fun c => c.segment_count)).sum)
    ∧ (∀ pi p e, gpujpeg_encoder_create pi p = some e → p.interleaved ≠ 0 →
        e.segment_count = segPerScan e.mcu_count p.restart_interval.toNat) :=
  c4_segment_count_law 13 4 (by decide) (by decide)

/-- C5: a segment's Huffman pass starts from a DC prediction of 0 for every
component and its byte output depends only on that segment's own blocks and
the shared tables: two segment lists that agree at index i produce identical
per-segment outputs at i regardless of every other segment, and the
per-segment output is exactly the zero-predictor encoding of its own blocks. -/
theorem c5_segment_independence (T : Nat → HuffTable × HuffTable)
    (segs1 segs2 : List (List Block)) (i : Nat)
    (h : segs1[i]? = segs2[i]?) :
    (segs1.map (encodeSegmentBytes T))[i]? = (segs2.map (encodeSegmentBytes T))[i]?
    ∧ ∀ blocks : List Block,
        encodeSegmentBytes T blocks
          = (encodeBlocksFrom T (fun _ => 0) blocks).map packSegment := by
  constructor
  · rw [List.getElem?_map, List.getElem?_map, h]
  · intro blocks
    rfl

/-- Witness for C5: two segment lists differing everywhere except index 0. -/
theorem c5_segment_independence_witness :
    (([[⟨0, 3, []⟩]] : List (List Block)).map
        (encodeSegmentBytes (fun _ => (⟨[(2, [true])]⟩, ⟨[(0, [false])]⟩))))[0]?
      = (([[⟨0, 3, []⟩], [⟨1, 9, []⟩]] : List (List Block)).map
        (encodeSegmentBytes (fun _ => (⟨[(2, [true])]⟩, ⟨[(0, [false])]⟩))))[0]?
    ∧ ∀ blocks : List Block,
        encodeSegmentBytes (fun _ => (⟨[(2, [true])]⟩, ⟨[(0, [false])]⟩)) blocks
          = (encodeBlocksFrom (fun _ => (⟨[(2, [true])]⟩, ⟨[(0, [false])]⟩))
              (fun _ => 0) blocks).map packSegment :=
  c5_segment_independence (fun _ => (⟨[(2, [true])]⟩, ⟨[(0, [false])]⟩))
    [[⟨0, 3, []⟩]] [[⟨0, 3, []⟩], [⟨1, 9, []⟩]] 0 (by decide)

/-- C6: in every segment byte stream the encoder produces, a zero byte is
inserted immediately after every 0xFF byte (byte-stuffing), so no payload
byte pair can form a restart marker. -/
theorem c6_byte_stuffing (T : Nat → HuffTable × HuffTable) (blocks : List Block)
    (out : List Nat) (henc : encodeSegmentBytes T blocks = some out) :
    (∀ i, out[i]? = some 255 → out[i + 1]? = some 0) ∧ wellStuffed out = true := by
  rw [encodeSegmentBytes] at henc
  cases he : encodeSegment T blocks with
  | none => rw [he] at henc; simp at henc
  | some bits =>
    rw [he] at henc
    have hout : out = packSegment bits := by simpa using henc.symm
    subst hout
    have hws : wellStuffed (packSegment bits) = true := wellStuffed_stuff _
    exact ⟨wellStuffed_index_aux (packSegment bits).length _ le_rfl hws, hws⟩

/-- Witness for C6: a segment whose payload contains a 0xFF byte, which is
followed by a stuffed zero. -/
theorem c6_byte_stuffing_witness :
    encodeSegmentBytes (fun _ => (⟨[(8, List.replicate 8 true)]⟩, ⟨[(0, [false])]⟩))
        [⟨0, 255, []⟩] = some [255, 0, 255, 0]
    ∧ (∀ i, ([255, 0, 255, 0] : List Nat)[i]? = some 255 →
        ([255, 0, 255, 0] : List Nat)[i + 1]? = some 0)
    ∧ wellStuffed [255, 0, 255, 0] = true :=
  ⟨by decide,
    c6_byte_stuffing (fun _ => (⟨[(8, List.replicate 8 true)]⟩, ⟨[(0, [false])]⟩))
      [⟨0, 255, []⟩] [255, 0, 255, 0] (by decide)⟩

/-- C7 as stated is false on the model: with a DC table supporting categories
0–3 only, the input DC coefficient 14 has magnitude category 4 — exceeding
every category the table supports — yet the encode call succeeds with status
0 and produces an output buffer, because DC coefficients are coded as
successive differences and every difference (7, 7) is in category 3. -/
theorem c7_counterexample :
    (∀ e ∈ ([(0, [false, false]), (1, [false, true]), (2, [true, false]),
        (3, [true, true, false])] : List (Nat × List Bool)), e.1 < category 14)
    ∧ (gpujpeg_encoder_encode
        (fun _ => (⟨[(0, [false, false]), (1, [false, true]), (2, [true, false]),
          (3, [true, true, false])]⟩, ⟨[(0, [false])]⟩))
        [[⟨0, 7, List.replicate 63 0⟩, ⟨0, 14, List.replicate 63 0⟩]]).1 = 0
    ∧ ((gpujpeg_encoder_encode
        (fun _ => (⟨[(0, [false, false]), (1, [false, true]), (2, [true, false]),
          (3, [true, true, false])]⟩, ⟨[(0, [false])]⟩))
        [[⟨0, 7, List.replicate 63 0⟩, ⟨0, 14, List.replicate 63 0⟩]]).2).isSome = true := by
  decide

/-- C7 amended: if any magnitude category the encoder actually codes — an AC
coefficient's category, or the category of a DC difference formed by the
per-component predictor chain — exceeds every category its code table
supports, the encode call fails with a nonzero status and produces no output
buffer. -/
theorem c7_category_error_amended (T : Nat → HuffTable × HuffTable)
    (segs : List (List Block))
    (h : ∃ seg ∈ segs,
      (∃ p ∈ dcDiffsFrom (fun _ => 0) seg, ∀ e ∈ (T p.1).1.entries, e.1 < category p.2)
      ∨ (∃ b ∈ seg, ∃ v ∈ b.acs, v ≠ 0
          ∧ ∀ e ∈ (T b.comp).2.entries, e.1 % 16 < category v)) :
    (gpujpeg_encoder_encode T segs).1 ≠ 0 ∧ (gpujpeg_encoder_encode T segs).2 = none := by
  obtain ⟨seg, hseg, hbad⟩ := h
  have hsegnone : encodeSegmentBytes T seg = none := by
    rw [encodeSegmentBytes, encodeSegment]
    rcases hbad with hdc | ⟨b, hb, v, hv, hv0, hbadv⟩
    · rw [encodeBlocksFrom_none_of_badDC T seg (fun _ => 0) hdc]
      rfl
    · rw [encodeBlocksFrom_none_of_badAC T seg (fun _ => 0) b v hb hv hv0 hbadv]
      rfl
  have hmap : mapOpt (encodeSegmentBytes T) segs = none :=
    mapOpt_none_of_mem _ segs seg hseg hsegnone
  rw [gpujpeg_encoder_encode, gpujpegEncodeScan, hmap]
  simp

/-- Witness for C7 amended: a first-block DC of 100 (category 7) against a
table supporting categories 0–1 only makes the encode call fail. -/
theorem c7_category_error_amended_witness :
    (gpujpeg_encoder_encode (fun _ => (⟨[(0, [false]), (1, [true])]⟩, ⟨[(0, [false])]⟩))
        [[⟨0, 100, List.replicate 63 0⟩]]).1 ≠ 0
    ∧ (gpujpeg_encoder_encode (fun _ => (⟨[(0, [false]), (1, [true])]⟩, ⟨[(0, [false])]⟩))
        [[⟨0, 100, List.replicate 63 0⟩]]).2 = none :=
  c7_category_error_amended (fun _ => (⟨[(0, [false]), (1, [true])]⟩, ⟨[(0, [false])]⟩))
    [[⟨0, 100, List.replicate 63 0⟩]]
    ⟨[⟨0, 100, List.replicate 63 0⟩], by decide, Or.inl (by decide)⟩

/-- C8: the Geometry Resolver reports an error — `gpujpeg_encoder_create`
returns NULL rather than silently clamping — whenever any sampling factor is
non-positive, the component count exceeds the supported maximum, or a
resulting MCU size is zero; no encoder (and hence no parallel work) results
from such a configuration. -/
theorem c8_config_validation (pi : gpujpeg_image_parameters) (p : gpujpeg_encoder_parameters)
    (h : (∃ f ∈ p.sampling_factor, f.horizontal ≤ 0 ∨ f.vertical ≤ 0)
      ∨ (GPUJPEG_MAX_COMPONENT_COUNT : Int) < pi.comp_count
      ∨ (∃ c ∈ gpujpeg_encoder_components pi p, c.mcu_size = 0)) :
    gpujpeg_encoder_create pi p = none := by
  have hfalse : ¬ (gpujpeg_configuration_check pi p = true) := by
    rw [gpujpeg_configuration_check]
    simp only [Bool.and_eq_true, List.all_eq_true, Bool.and_eq_true, decide_eq_true_eq]
    rcases h with ⟨f, hf, hbad⟩ | h2 | ⟨c, hc, hbad⟩
    · intro hall
      obtain ⟨⟨h1, _⟩, _⟩ := hall
      have := h1 f hf
      rcases hbad with hb | hb <;> omega
    · intro hall
      obtain ⟨⟨_, hle⟩, _⟩ := hall
      omega
    · intro hall
      obtain ⟨_, h3⟩ := hall
      exact (h3 c hc) hbad
  rw [gpujpeg_encoder_create, if_neg hfalse]

/-- Witness for C8: a configuration with a zero horizontal sampling factor is
rejected with NULL. -/
theorem c8_config_validation_witness :
    gpujpeg_encoder_create ⟨8, 8, 1⟩ ⟨75, 0, 0, [⟨0, 2⟩]⟩ = none :=
  c8_config_validation ⟨8, 8, 1⟩ ⟨75, 0, 0, [⟨0, 2⟩]⟩
    (Or.inl ⟨⟨0, 2⟩, by decide, Or.inl (by decide)⟩)

/-- C9: encoding is deterministic — running the per-segment passes in any
execution order that is a permutation of the segment indices, gathering from
the initially-undefined result table and compacting, produces exactly the
canonical sequential result: byte-identical buffers and lengths, with no
output read from an unwritten (`none`) slot. -/
theorem c9_schedule_determinism (T : Nat → HuffTable × HuffTable)
    (segs : List (List Block)) (order : List Nat)
    (hperm : order.Perm (List.range segs.length)) :
    encodeWithSchedule T segs order = gpujpegEncodeScan T segs := by
  rw [encodeWithSchedule, gpujpegEncodeScan]
  congr 1
  have hsched : ∀ i ∈ List.range segs.length,
      runSchedule (fun i => (segs[i]?).bind (encodeSegmentBytes T)) order i
        = (segs[i]?).bind (encodeSegmentBytes T) := by
    intro i hi
    rw [runSchedule, runSchedule_eq]
    rw [if_pos (hperm.mem_iff.mpr hi)]
  rw [mapOpt_congr _ _ (List.range segs.length) hsched]
  exact mapOpt_range_index (encodeSegmentBytes T) segs

/-- Witness for C9: the reversed order [1, 0] over two segments yields the
same buffer as the sequential encode. -/
theorem c9_schedule_determinism_witness :
    encodeWithSchedule (fun _ => (⟨[(0, [false]), (1, [true])]⟩, ⟨[(0, [false])]⟩))
        [[⟨0, 1, List.replicate 63 0⟩], [⟨0, 0, List.replicate 63 0⟩]] [1, 0]
      = gpujpegEncodeScan (fun _ => (⟨[(0, [false]), (1, [true])]⟩, ⟨[(0, [false])]⟩))
        [[⟨0, 1, List.replicate 63 0⟩], [⟨0, 0, List.replicate 63 0⟩]] :=
  c9_schedule_determinism (fun _ => (⟨[(0, [false]), (1, [true])]⟩, ⟨[(0, [false])]⟩))
    [[⟨0, 1, List.replicate 63 0⟩], [⟨0, 0, List.replicate 63 0⟩]] [1, 0] (by decide)

/-- C10: the public interface uses two distinct error conventions the caller
must check separately: `gpujpeg_encoder_create` returns NULL (`none`) exactly
on configuration failure and a populated encoder structure on success, while
`gpujpeg_encoder_encode` and `gpujpeg_encoder_destroy` signal failure by a
nonzero int status and success by 0, encode's output buffer being present
exactly when its status is 0. -/
theorem c10_api_conventions :
    (∀ pi p, gpujpeg_encoder_create pi p = none ↔ gpujpeg_configuration_check pi p = false)
    ∧ (∀ pi p e, gpujpeg_encoder_create pi p = some e → e.param = p ∧ e.param_image = pi)
    ∧ (∀ T segs, (gpujpeg_encoder_encode T segs).1 = 0
        ↔ ((gpujpeg_encoder_encode T segs).2).isSome = true)
    ∧ (∀ T segs, (gpujpeg_encoder_encode T segs).1 = 0
        ∨ (gpujpeg_encoder_encode T segs).1 = -1)
    ∧ (∀ e, gpujpeg_encoder_destroy e = 0) := by
  refine ⟨?_, ?_, ?_, ?_, fun e => rfl⟩
  · intro pi p
    rw [gpujpeg_encoder_create]
    by_cases hok : gpujpeg_configuration_check pi p
    · simp [hok]
    · simp [hok]
  · intro pi p e hcr
    rw [gpujpeg_encoder_create] at hcr
    by_cases hok : gpujpeg_configuration_check pi p
    · rw [if_pos hok] at hcr
      have he := (Option.some.injEq _ _).mp hcr
      subst he
      exact ⟨rfl, rfl⟩
    · rw [if_neg hok] at hcr
      simp at hcr
  · intro T segs
    rw [gpujpeg_encoder_encode]
    cases gpujpegEncodeScan T segs <;> simp
  · intro T segs
    rw [gpujpeg_encoder_encode]
    cases gpujpegEncodeScan T segs <;> simp
